import Mathlib

/-!
Verification development for the RAC rules-as-code engine.

This file gives a shallow embedding of the core of the engine:
`src/rac/ast.py`, `src/rac/schema.py`, `src/rac/compiler.py` and
`src/rac/executor.py`, and proves the temporal-resolution, dependency,
scheduling and evaluation properties stated about them.

Modelling conventions:
* Dates (`datetime.date`) are modelled as integers: only their linear
  order is ever used by the code under verification.
* Python numbers (`int`/`float`) are modelled together as rationals.
* Python dicts are modelled as association lists in insertion order;
  assignment (`d[k] = v`) replaces the binding in place when the key is
  present and appends it otherwise, exactly like a Python dict.
* Python sets of strings are modelled as duplicate-free lists in
  insertion order.
* Python exceptions become `Except` results; the distinct exception
  classes become constructors of an error type.
-/

namespace RAC

/-- Dates: `datetime.date` values, reduced to their linear order. -/
abbrev DateT := Int

/-- Runtime values (the `Any`-typed payloads flowing through
`executor.evaluate`): numbers, booleans, strings, `None`, lists and
dict rows. -/
inductive Value where
  | num (q : ℚ)
  | bool (b : Bool)
  | str (s : String)
  | none
  | list (items : List Value)
  | dict (entries : List (String × Value))

/-- A data row: a Python dict from field name to value. -/
abbrev Row := List (String × Value)

/-- Python dict assignment `d[k] = v`: replace in place if the key is
present, otherwise append (insertion order is preserved). -/
def dictSet {α : Type} (d : List (String × α)) (k : String) (v : α) :
    List (String × α) :=
  if (d.lookup k).isSome then
    d.map (fun kv => if kv.1 = k then (k, v) else kv)
  else
    d ++ [(k, v)]

/-- Expression nodes, mirroring the discriminated union in `ast.py`.
`matchE` is `ast.Match` (its `cases` are `(pattern, result)` pairs and
`default` an optional expression); `cond` is `ast.Cond`. -/
inductive Expr where
  | literal (value : Value)
  | var (path : String)
  | binop (op : String) (left right : Expr)
  | unaryop (op : String) (operand : Expr)
  | call (func : String) (args : List Expr)
  | fieldAccess (obj : Expr) (field : String)
  | matchE (subject : Expr) (cases : List (Expr × Expr)) (dflt : Option Expr)
  | cond (condition then_expr else_expr : Expr)

/-- `ast.TemporalValue`: a value with temporal bounds; `end_` models the
`end` attribute (`None` = no end). -/
structure TemporalValue where
  start : DateT
  end_ : Option DateT := Option.none
  expr : Expr

/-- `ast.VariableDecl`. -/
structure VariableDecl where
  path : String
  entity : Option String := Option.none
  values : List TemporalValue := []

/-- `ast.AmendDecl`. -/
structure AmendDecl where
  target : String
  values : List TemporalValue := []

/-- `ast.EntityDecl`: `fields` are `(name, type)` pairs, `relations`
are `(name, target, many)` triples. -/
structure EntityDecl where
  name : String
  fields : List (String × String) := []
  relations : List (String × String × Bool) := []

/-- `ast.Module`: the parse result of one source file. -/
structure Module where
  path : String := ""
  entities : List (EntityDecl) := []
  «variables» : List (VariableDecl) := []
  amendments : List (AmendDecl) := []

/-- `schema.Field`: a field on an entity. -/
structure FieldInfo where
  name : String
  dtype : String
  nullable : Bool := false

/-- A relation record as constructed by `Compiler._collect_entities`
(`Relation(name=name, target=target, many=many)`; the class itself is
absent from `schema.py`, so it is modelled from its construction site). -/
structure RelationInfo where
  name : String
  target : String
  many : Bool

/-- `schema.Entity`: an entity type in the schema, with the `fields` and
`relations` dicts that `Compiler._collect_entities` populates. -/
structure Entity where
  name : String
  primary_key : String := "id"
  fields : List (String × FieldInfo) := []
  relations : List (String × RelationInfo) := []

/-- `schema.Schema`: the complete schema, a dict of entities. -/
structure Schema where
  entities : List (String × Entity) := []

/-- `Schema.add_entity`: `self.entities[entity.name] = entity` —
a plain dict assignment, replacing any previous entity of that name. -/
def Schema.add_entity (s : Schema) (entity : Entity) : Schema :=
  { s with entities := dictSet s.entities entity.name entity }

/-- `schema.Data`: input data, a dict of entity tables. -/
structure Data where
  tables : List (String × List Row) := []

/-- `Data.get_rows`: `self.tables.get(entity, [])`. -/
def Data.get_rows (d : Data) (entity : String) : List Row :=
  (d.tables.lookup entity).getD []

/-- Failures raised at evaluation time: `ExecutionError`, the untyped
`KeyError` from `self.ir.variables[path]`, and the `TypeError` /
`AttributeError` / `ValueError` a Python primitive raises on an
ill-typed operand. -/
inductive Err where
  | executionError (msg : String)
  | keyError (key : String)
  | typeError
  | attributeError
  | valueError

/-- `executor.Context`: the runtime context for evaluation. -/
structure Context where
  data : Data
  computed : List (String × Value) := []
  current_row : Option Row := Option.none
  current_entity : Option String := Option.none

/-- `Context.get`: computed value first, then the current row (guarded
by Python truthiness of the row dict), else `ExecutionError`. -/
def Context.get (ctx : Context) (path : String) : Except Err Value :=
  match ctx.computed.lookup path with
  | some v => .ok v
  | Option.none =>
    match ctx.current_row with
    | some row =>
      if row.isEmpty then .error (.executionError ("undefined: " ++ path))
      else
        match row.lookup path with
        | some v => .ok v
        | Option.none => .error (.executionError ("undefined: " ++ path))
    | Option.none => .error (.executionError ("undefined: " ++ path))

/-- Python truthiness of a runtime value. -/
def truthy : Value → Bool
  | .num q => !(q == 0)
  | .bool b => b
  | .str s => !(s == "")
  | .none => false
  | .list items => !items.isEmpty
  | .dict entries => !entries.isEmpty

/-- Numeric view of a value: Python treats `bool` as an integer in
arithmetic. -/
def toNum : Value → Option ℚ
  | .num q => some q
  | .bool b => some (if b then 1 else 0)
  | _ => Option.none

mutual
/-- Python `==` on runtime values: numerics (including booleans)
compare numerically, same-typed strings/lists/dicts compare
structurally, every other cross-type comparison is `False`. -/
def pyEq : Value → Value → Bool
  | .num a, .num b => a == b
  | .num a, .bool b => a == (if b then 1 else 0)
  | .bool a, .num b => (if a then (1 : ℚ) else 0) == b
  | .bool a, .bool b => a == b
  | .str a, .str b => a == b
  | .none, .none => true
  | .list a, .list b => pyEqList a b
  | .dict a, .dict b => pyEqEntries a b
  | _, _ => false

def pyEqList : List Value → List Value → Bool
  | [], [] => true
  | a :: as', b :: bs' => pyEq a b && pyEqList as' bs'
  | _, _ => false

def pyEqEntries : List (String × Value) → List (String × Value) → Bool
  | [], [] => true
  | (k₁, v₁) :: as', (k₂, v₂) :: bs' => k₁ == k₂ && pyEq v₁ v₂ && pyEqEntries as' bs'
  | _, _ => false
end

/-- Python `l + r`: numeric addition (booleans coerce), string and list
concatenation; anything else raises `TypeError`. -/
def pyAdd : Value → Value → Except Err Value
  | .str a, .str b => .ok (.str (a ++ b))
  | .list a, .list b => .ok (.list (a ++ b))
  | a, b =>
    match toNum a, toNum b with
    | some x, some y => .ok (.num (x + y))
    | _, _ => .error .typeError

/-- Python `l - r` (numeric only). -/
def pySub (a b : Value) : Except Err Value :=
  match toNum a, toNum b with
  | some x, some y => .ok (.num (x - y))
  | _, _ => .error .typeError

/-- Python `l * r` (numeric only in this model). -/
def pyMul (a b : Value) : Except Err Value :=
  match toNum a, toNum b with
  | some x, some y => .ok (.num (x * y))
  | _, _ => .error .typeError

/-- `l / r if r != 0 else 0` (executor.py line 80): division by zero
yields `0` instead of raising. -/
def pyDiv (a b : Value) : Except Err Value :=
  match toNum a, toNum b with
  | some x, some y => .ok (if y == 0 then .num 0 else .num (x / y))
  | _, _ => .error .typeError

/-- Python `l < r`: numeric or string comparison; mixed operands raise
`TypeError`. -/
def pyLt (a b : Value) : Except Err Bool :=
  match a, b with
  | .str x, .str y => .ok (x < y)
  | _, _ =>
    match toNum a, toNum b with
    | some x, some y => .ok (x < y)
    | _, _ => .error .typeError

/-- Python `l <= r`. -/
def pyLe (a b : Value) : Except Err Bool :=
  match a, b with
  | .str x, .str y => .ok (decide (x ≤ y))
  | _, _ =>
    match toNum a, toNum b with
    | some x, some y => .ok (decide (x ≤ y))
    | _, _ => .error .typeError

/-- Python unary `-` (numeric only). -/
def pyNeg (a : Value) : Except Err Value :=
  match toNum a with
  | some x => .ok (.num (-x))
  | Option.none => .error .typeError

/-- The keys of the `BUILTINS` table in `executor.py`. -/
def BUILTIN_NAMES : List String :=
  ["min", "max", "abs", "round", "sum", "len", "clip", "any", "all"]

/-- Python `min` over a nonempty sequence (first minimum wins);
`min([])` raises `ValueError`. -/
def pyMinList : List Value → Except Err Value
  | [] => .error .valueError
  | v :: vs => vs.foldlM (fun acc x => do
      if (← pyLt x acc) then pure x else pure acc) v

/-- Python `max` over a nonempty sequence (first maximum wins). -/
def pyMaxList : List Value → Except Err Value
  | [] => .error .valueError
  | v :: vs => vs.foldlM (fun acc x => do
      if (← pyLt acc x) then pure x else pure acc) v

/-- Python `sum(xs)`: a left fold of `+` starting from the integer 0. -/
def pySumList (vs : List Value) : Except Err Value :=
  vs.foldlM (fun acc x => pyAdd acc x) (Value.num 0)

/-- Python `round` with one argument: round-half-to-even to an integer. -/
def pyRound (q : ℚ) : ℤ :=
  let fl := ⌊q⌋
  let fr := q - fl
  if fr < 1 / 2 then fl
  else if 1 / 2 < fr then fl + 1
  else if fl % 2 = 0 then fl else fl + 1

/-- Application of a `BUILTINS` entry to evaluated arguments, mirroring
the Python call `BUILTINS[func](*arg_vals)`; an argument pattern the
builtin cannot consume raises `TypeError`. -/
def applyBuiltin : String → List Value → Except Err Value
  | "min", [Value.list vs] => pyMinList vs
  | "min", vs => if 2 ≤ vs.length then pyMinList vs else .error .typeError
  | "max", [Value.list vs] => pyMaxList vs
  | "max", vs => if 2 ≤ vs.length then pyMaxList vs else .error .typeError
  | "abs", [v] =>
    (match toNum v with
     | some x => .ok (.num |x|)
     | Option.none => .error .typeError)
  | "round", [v] =>
    (match toNum v with
     | some x => .ok (.num (pyRound x))
     | Option.none => .error .typeError)
  | "sum", [Value.list vs] => pySumList vs
  | "len", [Value.list vs] => .ok (.num vs.length)
  | "len", [Value.str s] => .ok (.num s.length)
  | "len", [Value.dict es] => .ok (.num es.length)
  | "clip", [x, lo, hi] => do
      let m ← pyMinList [hi, x]
      pyMaxList [lo, m]
  | "any", [Value.list vs] => .ok (.bool (vs.any truthy))
  | "all", [Value.list vs] => .ok (.bool (vs.all truthy))
  | _, _ => .error .typeError

mutual
/-- `executor.evaluate`: the tree-walking evaluator, one case per AST
node, with the Python exceptions as `Except` errors. -/
def evaluate : Expr → Context → Except Err Value
  | .literal v, _ => .ok v
  | .var path, ctx => ctx.get path
  | .binop op left right, ctx => do
      let l ← evaluate left ctx
      let r ← evaluate right ctx
      match op with
      | "+" => pyAdd l r
      | "-" => pySub l r
      | "*" => pyMul l r
      | "/" => pyDiv l r
      | "<" => do pure (.bool (← pyLt l r))
      | ">" => do pure (.bool (← pyLt r l))
      | "<=" => do pure (.bool (← pyLe l r))
      | ">=" => do pure (.bool (← pyLe r l))
      | "==" => pure (.bool (pyEq l r))
      | "!=" => pure (.bool (!pyEq l r))
      | "and" => pure (if truthy l then r else l)
      | "or" => pure (if truthy l then l else r)
      | _ => .error (.executionError ("unknown op: " ++ op))
  | .unaryop op operand, ctx => do
      let v ← evaluate operand ctx
      match op with
      | "-" => pyNeg v
      | "not" => pure (.bool (!truthy v))
      | _ => .error (.executionError ("unknown unary op: " ++ op))
  | .call func args, ctx =>
      if func ∈ BUILTIN_NAMES then do
        let argVals ← evaluateList args ctx
        applyBuiltin func argVals
      else .error (.executionError ("unknown function: " ++ func))
  | .fieldAccess obj fld, ctx => do
      let o ← evaluate obj ctx
      match o with
      | .dict entries => pure ((entries.lookup fld).getD Value.none)
      | .list items => do
          pure (.list (← items.mapM (fun item =>
            match item with
            | .dict es => pure ((es.lookup fld).getD Value.none)
            | _ => Except.error Err.attributeError)))
      | _ => .error .attributeError
  | .matchE subject cases dflt, ctx => do
      let val ← evaluate subject ctx
      let hit ← evaluateCases val cases ctx
      match hit with
      | some v => pure v
      | Option.none =>
        match dflt with
        | some d => evaluate d ctx
        | Option.none => .error (.executionError "no match")
  | .cond c t e, ctx => do
      let cv ← evaluate c ctx
      if truthy cv then evaluate t ctx else evaluate e ctx

/-- Left-to-right evaluation of call arguments. -/
def evaluateList : List Expr → Context → Except Err (List Value)
  | [], _ => .ok []
  | e :: es, ctx => do
      let v ← evaluate e ctx
      let vs ← evaluateList es ctx
      pure (v :: vs)

/-- First-match-wins case dispatch of the `for pattern, result in cases`
loop of `ast.Match` evaluation; `none` means no pattern matched. -/
def evaluateCases : Value → List (Expr × Expr) → Context → Except Err (Option Value)
  | _, [], _ => .ok Option.none
  | val, (pat, res) :: rest, ctx => do
      let pv ← evaluate pat ctx
      if pyEq val pv then do
        let v ← evaluate res ctx
        pure (some v)
      else evaluateCases val rest ctx
end

/-- `compiler.ResolvedVar`: a variable resolved to a single expression
for a point in time. -/
structure ResolvedVar where
  path : String
  entity : Option String := Option.none
  expr : Expr
  deps : List String := []

/-- `compiler.IR`: resolved variable graph plus schema. -/
structure IR where
  schema_ : Schema
  «variables» : List (String × ResolvedVar)
  order : List String

/-- `executor.Result`: computed scalars and per-entity output columns. -/
structure Result where
  scalars : List (String × Value)
  entities : List (String × List (String × List Value))

/-- The mutable state of `Executor.execute`: the computed-scalars dict
of the context plus the per-entity output tables. -/
structure ExecState where
  computed : List (String × Value) := []
  entities : List (String × List (String × List Value)) := []

/-- The augmented row built per entity row: the original fields updated
with each previously computed entity-level column that already has a
value at this row index. -/
def buildAugmented (row : Row) (prevCols : List (String × List Value)) (i : Nat) : Row :=
  prevCols.foldl (fun acc pv =>
    if i < pv.2.length then dictSet acc pv.1 (pv.2.getD i Value.none) else acc) row

/-- The per-row loop of `Executor.execute` for one entity-scoped
variable: the entity's output dict holds the current column's partial
list while it is being built, exactly as in the Python mutation. -/
def runRows (data : Data) (computed : List (String × Value)) (entityName path : String)
    (expr : Expr) (table : List (String × List Value)) :
    Nat → List Row → List Value → Except Err (List Value)
  | _, [], acc => .ok acc
  | i, row :: rest, acc => do
      let tableNow := dictSet table path acc
      let augmented := buildAugmented row tableNow i
      let v ← evaluate expr ⟨data, computed, some augmented, some entityName⟩
      runRows data computed entityName path expr table (i + 1) rest (acc ++ [v])

/-- One iteration of the `for path in self.ir.order` loop: the dict
subscript `self.ir.variables[path]` raises an untyped `KeyError` when
the path has no entry. -/
def execStep (ir : IR) (data : Data) (st : ExecState) (path : String) :
    Except Err ExecState :=
  match ir.variables.lookup path with
  | Option.none => .error (.keyError path)
  | some var =>
    match var.entity with
    | Option.none => do
        let v ← evaluate var.expr ⟨data, st.computed, Option.none, Option.none⟩
        pure { st with computed := dictSet st.computed path v }
    | some entityName =>
        let rows := data.get_rows entityName
        let table := (st.entities.lookup entityName).getD []
        let table := dictSet table path []
        do
          let vals ← runRows data st.computed entityName path var.expr table 0 rows []
          pure { st with entities := dictSet st.entities entityName (dictSet table path vals) }

/-- The main loop of `Executor.execute` over the topological order. -/
def execList (ir : IR) (data : Data) : ExecState → List String → Except Err ExecState
  | st, [] => .ok st
  | st, p :: rest => do execList ir data (← execStep ir data st p) rest

/-- `Executor.execute`: run the IR against the data and package the
result. -/
def Executor.execute (ir : IR) (data : Data) : Except Err Result := do
  let st ← execList ir data {} ir.order
  pure ⟨st.computed, st.entities⟩

/-- `compiler.CompileError`, with its distinct message forms as
constructors.  `outOfFuel` is the recursion-depth guard of the
embedding of `_topo_sort.visit`; it is proved unreachable below. -/
inductive CompileError where
  | duplicateVariable (path : String)
  | noValue (path : String)
  | amendingUnknown (target : String)
  | circularDependency (path : String)
  | outOfFuel

/-- The body of `Compiler._collect_entities` for one declaration:
build an `Entity` and populate its `fields` and `relations` dicts. -/
def entityOfDecl (decl : EntityDecl) : Entity :=
  { name := decl.name,
    fields := decl.fields.foldl
      (fun acc nt => dictSet acc nt.1 ⟨nt.1, nt.2, false⟩) [],
    relations := decl.relations.foldl
      (fun acc r => dictSet acc r.1 ⟨r.1, r.2.1, r.2.2⟩) [] }

/-- `Compiler._collect_entities` over all modules, each entity added to
the schema with `Schema.add_entity`. -/
def collectEntities (modules : List Module) : Schema :=
  modules.foldl
    (fun s m => m.entities.foldl (fun s d => s.add_entity (entityOfDecl d)) s)
    {}

/-- One step of `Compiler._collect_variables`: an already-present path
is a duplicate-variable error, otherwise the declaration is recorded. -/
def collectVarStep (acc : List (String × VariableDecl)) (decl : VariableDecl) :
    Except CompileError (List (String × VariableDecl)) :=
  if (acc.lookup decl.path).isSome then
    .error (.duplicateVariable decl.path)
  else .ok (acc ++ [(decl.path, decl)])

/-- `Compiler._collect_variables` over all modules. -/
def collectVariables (modules : List Module) :
    Except CompileError (List (String × VariableDecl)) :=
  modules.foldlM (fun acc m => m.variables.foldlM collectVarStep acc) []

/-- `Compiler._collect_amendments` over all modules. -/
def collectAmendments (modules : List Module) : List AmendDecl :=
  modules.foldl (fun acc m => acc ++ m.amendments) []

/-- The interval test of `Compiler._pick_temporal`:
`tv.start <= as_of and (tv.end is None or as_of <= tv.end)`. -/
def appliesAt (tv : TemporalValue) (asOf : DateT) : Bool :=
  decide (tv.start ≤ asOf) &&
    (match tv.end_ with
     | Option.none => true
     | some e => decide (asOf ≤ e))

/-- `Compiler._pick_temporal`: scan the temporal values in declaration
order, later applicable values overwriting earlier ones. -/
def pickTemporal (values : List TemporalValue) (asOf : DateT) : Option Expr :=
  values.foldl
    (fun result tv => if appliesAt tv asOf then some tv.expr else result)
    Option.none

/-- The first loop body of `Compiler._resolve_temporal`: resolve one
declared variable; no applicable interval is a fatal error. -/
def resolveBaseStep (asOf : DateT) (resolved : List (String × ResolvedVar))
    (pd : String × VariableDecl) :
    Except CompileError (List (String × ResolvedVar)) :=
  match pickTemporal pd.2.values asOf with
  | Option.none => .error (.noValue pd.1)
  | some expr => .ok (dictSet resolved pd.1 ⟨pd.1, pd.2.entity, expr, []⟩)

/-- The amendment loop body of `Compiler._resolve_temporal`: an unknown
target is fatal; an applicable amendment value replaces the target's
expression in place. -/
def applyAmendStep (asOf : DateT) (resolved : List (String × ResolvedVar))
    (amend : AmendDecl) :
    Except CompileError (List (String × ResolvedVar)) :=
  if (resolved.lookup amend.target).isSome then
    match pickTemporal amend.values asOf with
    | Option.none => .ok resolved
    | some expr =>
        .ok (resolved.map (fun pr =>
          if pr.1 = amend.target then (pr.1, { pr.2 with expr := expr })
          else pr))
  else .error (.amendingUnknown amend.target)

/-- `Compiler._resolve_temporal`: resolve each declared variable, then
apply the amendments in collection order. -/
def resolveTemporal (varDecls : List (String × VariableDecl))
    (amendments : List AmendDecl) (asOf : DateT) :
    Except CompileError (List (String × ResolvedVar)) := do
  let resolved ← varDecls.foldlM (resolveBaseStep asOf) []
  amendments.foldlM (applyAmendStep asOf) resolved

/-- The `deps.add(path)` of `Compiler._walk_deps`, on the set modelled
as a duplicate-free list in insertion order. -/
def insertDep (deps : List String) (p : String) : List String :=
  if p ∈ deps then deps else deps ++ [p]

mutual
/-- `Compiler._walk_deps`: collect `/`-containing `Var` paths.  In the
`Match` case the subject, the case results and the default are walked;
the case patterns are not (compiler.py lines 142-147). -/
def walkDeps : Expr → List String → List String
  | .literal _, deps => deps
  | .var path, deps => if path.data.contains '/' then insertDep deps path else deps
  | .binop _ l r, deps => walkDeps r (walkDeps l deps)
  | .unaryop _ operand, deps => walkDeps operand deps
  | .call _ args, deps => walkDepsList args deps
  | .fieldAccess obj _, deps => walkDeps obj deps
  | .matchE subject cases dflt, deps =>
      let deps := walkDeps subject deps
      let deps := walkDepsCases cases deps
      (match dflt with
       | some d => walkDeps d deps
       | Option.none => deps)
  | .cond c t e, deps => walkDeps e (walkDeps t (walkDeps c deps))

/-- Walk of the argument list of a `Call`. -/
def walkDepsList : List Expr → List String → List String
  | [], deps => deps
  | e :: es, deps => walkDepsList es (walkDeps e deps)

/-- Walk of `Match` cases: only each case's result is visited. -/
def walkDepsCases : List (Expr × Expr) → List String → List String
  | [], deps => deps
  | (_, res) :: rest, deps => walkDepsCases rest (walkDeps res deps)
end

/-- `Compiler._find_deps`: walk from an empty set. -/
def findDeps (e : Expr) : List String := walkDeps e []

/-- The `visited`/`order` accumulators of `Compiler._topo_sort`. -/
structure TopoState where
  visited : List String := []
  order : List String := []

/-- The recursive `visit` of `Compiler._topo_sort`: error on a path in
the on-stack set `temp`, skip visited paths, and emit in post-order.
Recursion depth is bounded by a fuel argument (Python recursion is
unbounded; enough fuel is supplied and proved sufficient below). -/
def visit (vars : List (String × ResolvedVar)) :
    Nat → List String → TopoState → String → Except CompileError TopoState
  | 0, _, _, _ => .error .outOfFuel
  | fuel + 1, temp, st, path =>
    if path ∈ temp then .error (.circularDependency path)
    else if path ∈ st.visited then .ok st
    else
      match vars.lookup path with
      | some rv => do
          let st' ← rv.deps.foldlM
            (fun st' d => visit vars fuel (temp ++ [path]) st' d) st
          .ok ⟨st'.visited ++ [path], st'.order ++ [path]⟩
      | Option.none => .ok ⟨st.visited ++ [path], st.order ++ [path]⟩

/-- `Compiler._topo_sort`: visit every declared path in declaration
order. -/
def topoSort (vars : List (String × ResolvedVar)) :
    Except CompileError (List String) := do
  let st ← vars.foldlM (fun st pv => visit vars (vars.length + 1) [] st pv.1) {}
  .ok st.order

/-- The dependency-computation loop of `Compiler.compile`
(`var.deps = self._find_deps(var.expr)` for every resolved variable). -/
def withDeps (resolved : List (String × ResolvedVar)) :
    List (String × ResolvedVar) :=
  resolved.map (fun pr => (pr.1, { pr.2 with deps := findDeps pr.2.expr }))

/-- `Compiler.compile`: collect declarations, resolve temporal layers
and amendments, compute dependency sets, topologically sort. -/
def compile (modules : List Module) (asOf : DateT) : Except CompileError IR := do
  let schema := collectEntities modules
  let varDecls ← collectVariables modules
  let amendments := collectAmendments modules
  let resolved ← resolveTemporal varDecls amendments asOf
  let resolved := withDeps resolved
  let order ← topoSort resolved
  .ok ⟨schema, resolved, order⟩

/-! ### Spec-side vocabulary -/

/-- Spec-side: a temporal value's interval contains the date `T` when
`s ≤ T` and the end is absent or `T ≤ e` (claim C1's condition). -/
def ApplicableAt (tv : TemporalValue) (T : DateT) : Prop :=
  tv.start ≤ T ∧ (tv.end_ = Option.none ∨ ∃ e, tv.end_ = some e ∧ T ≤ e)

/-- Spec-side: a dependency edge `u → v` of the compiled variable
graph: `u` resolves to a variable whose dependency set contains `v`. -/
def DepEdge (vars : List (String × ResolvedVar)) (u v : String) : Prop :=
  ∃ rv, vars.lookup u = some rv ∧ v ∈ rv.deps

/-- Spec-side: the dependency graph contains a (directed) cycle. -/
def HasCycle (vars : List (String × ResolvedVar)) : Prop :=
  ∃ p, Relation.TransGen (DepEdge vars) p p

/-! ### Association-list lemmas -/

theorem lookup_cons {α : Type} (k k' : String) (v : α) (rest : List (String × α)) :
    List.lookup k ((k', v) :: rest) = if k = k' then some v else List.lookup k rest := by
  by_cases h : k = k'
  · simp [List.lookup, h]
  · rw [if_neg h]
    show (match k == k' with
      | true => some v
      | false => List.lookup k rest) = List.lookup k rest
    rw [show (k == k') = false from beq_eq_false_iff_ne.mpr h]

theorem lookup_eq_none_iff {α : Type} (l : List (String × α)) (k : String) :
    l.lookup k = Option.none ↔ k ∉ l.map Prod.fst := by
  induction l with
  | nil => simp [List.lookup]
  | cons p rest ih =>
      obtain ⟨k', v⟩ := p
      rw [lookup_cons]
      by_cases h : k = k' <;> simp [h, ih, eq_comm]

theorem lookup_some_mem_keys {α : Type} {l : List (String × α)} {k : String} {v : α}
    (h : l.lookup k = some v) : k ∈ l.map Prod.fst := by
  by_contra hmem
  rw [← lookup_eq_none_iff] at hmem
  simp [hmem] at h

theorem lookup_append {α : Type} (l₁ l₂ : List (String × α)) (k : String) :
    (l₁ ++ l₂).lookup k =
      match l₁.lookup k with
      | some v => some v
      | Option.none => l₂.lookup k := by
  induction l₁ with
  | nil => simp [List.lookup]
  | cons p rest ih =>
      obtain ⟨k', v⟩ := p
      rw [List.cons_append, lookup_cons, lookup_cons]
      by_cases h : k = k' <;> simp [h, ih]

theorem lookup_update_target {α : Type} (l : List (String × α)) (t : String)
    (f : α → α) (k : String) :
    ((l.map (fun pr => if pr.1 = t then (pr.1, f pr.2) else pr)).lookup k)
      = if k = t then (l.lookup k).map f else l.lookup k := by
  induction l with
  | nil => by_cases h : k = t <;> simp [List.lookup, h]
  | cons p rest ih =>
      obtain ⟨k', v⟩ := p
      have hmc : ((k', v) :: rest).map (fun pr => if pr.1 = t then (pr.1, f pr.2) else pr)
          = (if k' = t then (k', f v) else (k', v)) ::
              rest.map (fun pr => if pr.1 = t then (pr.1, f pr.2) else pr) := by
        simp only [List.map_cons]
      rw [hmc]
      by_cases ht : k' = t
      · rw [if_pos ht, lookup_cons, lookup_cons]
        by_cases hk : k = k'
        · rw [if_pos hk, if_pos hk, if_pos (hk.trans ht)]
          rfl
        · rw [if_neg hk, if_neg hk, ih]
      · rw [if_neg ht, lookup_cons, lookup_cons]
        by_cases hk : k = k'
        · rw [if_pos hk, if_pos hk, if_neg (fun hkt => ht (hk.symm.trans hkt))]
        · rw [if_neg hk, if_neg hk, ih]

theorem lookup_overwrite_const {α : Type} (l : List (String × α)) (t : String)
    (v : α) (k : String) :
    ((l.map (fun kv => if kv.1 = t then (t, v) else kv)).lookup k)
      = if k = t then (l.lookup k).map (fun _ => v) else l.lookup k := by
  have hmap : (l.map (fun kv => if kv.1 = t then (t, v) else kv))
      = (l.map (fun pr => if pr.1 = t then (pr.1, (fun _ => v) pr.2) else pr)) := by
    apply List.map_congr_left
    intro a _
    by_cases h : a.1 = t
    · rw [if_pos h, if_pos h, h]
    · rw [if_neg h, if_neg h]
  rw [hmap]
  exact lookup_update_target l t (fun _ => v) k

theorem lookup_map_snd {α β : Type} (l : List (String × α)) (g : α → β) (k : String) :
    ((l.map (fun pr => (pr.1, g pr.2))).lookup k) = (l.lookup k).map g := by
  induction l with
  | nil => simp [List.lookup]
  | cons p rest ih =>
      obtain ⟨k', v⟩ := p
      simp only [List.map_cons]
      rw [lookup_cons, lookup_cons]
      by_cases h : k = k' <;> simp [h, ih]

theorem lookup_dictSet_self {α : Type} (d : List (String × α)) (k : String) (v : α) :
    (dictSet d k v).lookup k = some v := by
  unfold dictSet
  split
  · next hsome =>
      rw [lookup_overwrite_const, if_pos rfl]
      obtain ⟨w, hw⟩ := Option.isSome_iff_exists.mp hsome
      rw [hw]
      rfl
  · next hnone =>
      rw [lookup_append]
      have hd : d.lookup k = Option.none := by
        cases h : d.lookup k with
        | none => rfl
        | some w => rw [h] at hnone; simp at hnone
      rw [hd, lookup_cons, if_pos rfl]

theorem lookup_dictSet_ne {α : Type} (d : List (String × α)) (k k' : String) (v : α)
    (h : k' ≠ k) : (dictSet d k v).lookup k' = d.lookup k' := by
  unfold dictSet
  split
  · rw [lookup_overwrite_const, if_neg h]
  · rw [lookup_append]
    cases hd : d.lookup k' with
    | some w => rfl
    | none => rw [lookup_cons, if_neg h]; rfl

/-! ### Temporal-resolution lemmas -/

theorem appliesAt_iff (tv : TemporalValue) (T : DateT) :
    appliesAt tv T = true ↔ ApplicableAt tv T := by
  cases h : tv.end_ with
  | none => simp [appliesAt, ApplicableAt, h]
  | some e => simp [appliesAt, ApplicableAt, h]

theorem pickTemporal_foldl_init (values : List TemporalValue) (T : DateT)
    (r₀ : Option Expr) :
    values.foldl (fun r tv => if appliesAt tv T then some tv.expr else r) r₀
      = match pickTemporal values T with
        | some e => some e
        | Option.none => r₀ := by
  induction values generalizing r₀ with
  | nil => simp [pickTemporal]
  | cons tv rest ih =>
      simp only [pickTemporal, List.foldl_cons] at *
      rw [ih, ih (if appliesAt tv T then some tv.expr else Option.none)]
      cases h : rest.foldl (fun r tv => if appliesAt tv T then some tv.expr else r)
          Option.none with
      | some e => simp [pickTemporal, h]
      | none =>
          simp only [pickTemporal, h]
          by_cases ha : appliesAt tv T = true <;> simp [ha]

theorem pickTemporal_append (vs₁ vs₂ : List TemporalValue) (T : DateT) :
    pickTemporal (vs₁ ++ vs₂) T =
      match pickTemporal vs₂ T with
      | some e => some e
      | Option.none => pickTemporal vs₁ T := by
  unfold pickTemporal
  rw [List.foldl_append]
  exact pickTemporal_foldl_init vs₂ T _

theorem pickTemporal_eq_max_applicable (values : List TemporalValue) (T : DateT)
    (i : Nat) (hi : i < values.length)
    (happ : ApplicableAt (values.get ⟨i, hi⟩) T)
    (hmax : ∀ j (hj : j < values.length), i < j →
      ¬ ApplicableAt (values.get ⟨j, hj⟩) T) :
    pickTemporal values T = some (values.get ⟨i, hi⟩).expr := by
  induction values using List.reverseRecOn with
  | nil => simp at hi
  | append_singleton vs tv ih =>
      rw [pickTemporal_append]
      rcases Nat.lt_or_ge i vs.length with hlt | hge
      · have htv : ¬ ApplicableAt tv T := by
          have hj : vs.length < (vs ++ [tv]).length := by simp
          have := hmax vs.length hj hlt
          simpa [List.get_eq_getElem, List.getElem_append_right] using this
        have hpick : pickTemporal [tv] T = Option.none := by
          simp only [pickTemporal, List.foldl_cons, List.foldl_nil]
          rw [if_neg]
          intro hc
          exact htv ((appliesAt_iff tv T).mp hc)
        rw [hpick]
        have hget : (vs ++ [tv]).get ⟨i, hi⟩ = vs.get ⟨i, hlt⟩ := by
          simp only [List.get_eq_getElem]
          exact List.getElem_append_left hlt
        rw [hget] at happ ⊢
        exact ih hlt happ (fun j hj hij => by
          have hj' : j < (vs ++ [tv]).length := by simp; omega
          have := hmax j hj' hij
          simpa [List.get_eq_getElem, List.getElem_append_left hj] using this)
      · have hieq : i = vs.length := by
          have : i < vs.length + 1 := by simpa using hi
          omega
        subst hieq
        have hget : (vs ++ [tv]).get ⟨vs.length, hi⟩ = tv := by
          simp [List.get_eq_getElem, List.getElem_append_right]
        rw [hget] at happ ⊢
        have : appliesAt tv T = true := (appliesAt_iff tv T).mpr happ
        simp [pickTemporal, this]

/-! ### Compilation-stage lemmas -/

theorem compile_eq (modules : List Module) (asOf : DateT) :
    compile modules asOf =
      match collectVariables modules with
      | .error e => .error e
      | .ok varDecls =>
        match resolveTemporal varDecls (collectAmendments modules) asOf with
        | .error e => .error e
        | .ok resolved =>
          match topoSort (withDeps resolved) with
          | .error e => .error e
          | .ok order =>
              .ok ⟨collectEntities modules, withDeps resolved, order⟩ := by
  cases h₁ : collectVariables modules with
  | error e => simp [compile, h₁, Bind.bind, Except.bind]
  | ok varDecls =>
      cases h₂ : resolveTemporal varDecls (collectAmendments modules) asOf with
      | error e => simp [compile, h₁, h₂, Bind.bind, Except.bind]
      | ok resolved =>
          cases h₃ : topoSort (withDeps resolved) with
          | error e => simp [compile, h₁, h₂, h₃, Bind.bind, Except.bind]
          | ok order => simp [compile, h₁, h₂, h₃, Bind.bind, Except.bind]

theorem collectVarStep_nodup {acc res : List (String × VariableDecl)}
    {decl : VariableDecl} (h : collectVarStep acc decl = .ok res)
    (hnd : (acc.map Prod.fst).Nodup) : (res.map Prod.fst).Nodup := by
  unfold collectVarStep at h
  split at h
  · exact absurd h (by simp)
  · next hnone =>
      cases h
      have hmem : decl.path ∉ acc.map Prod.fst :=
        (lookup_eq_none_iff acc decl.path).mp
          (Option.not_isSome_iff_eq_none.mp hnone)
      simp [List.nodup_append, hnd, hmem]

theorem collect_inner_nodup (decls : List VariableDecl) :
    ∀ acc res, (acc.map Prod.fst).Nodup →
      decls.foldlM collectVarStep acc = .ok res →
      (res.map Prod.fst).Nodup := by
  induction decls with
  | nil =>
      intro acc res h hf
      simp only [List.foldlM_nil] at hf
      cases hf
      exact h
  | cons d ds ih =>
      intro acc res h hf
      rw [List.foldlM_cons] at hf
      cases hs : collectVarStep acc d with
      | error e => rw [hs] at hf; simp [Bind.bind, Except.bind] at hf
      | ok acc₁ =>
          rw [hs] at hf
          simp only [Bind.bind, Except.bind] at hf
          exact ih acc₁ res (collectVarStep_nodup hs h) hf

theorem collectVariables_nodup {modules : List Module}
    {res : List (String × VariableDecl)}
    (h : collectVariables modules = .ok res) : (res.map Prod.fst).Nodup := by
  unfold collectVariables at h
  suffices hgen : ∀ (ms : List Module) acc res, (acc.map Prod.fst).Nodup →
      ms.foldlM (fun acc m => m.variables.foldlM collectVarStep acc) acc
        = .ok res →
      (res.map Prod.fst).Nodup from hgen modules [] res (by simp) h
  intro ms
  induction ms with
  | nil =>
      intro acc res h hf
      simp only [List.foldlM_nil] at hf
      cases hf
      exact h
  | cons m ms ih =>
      intro acc res h hf
      rw [List.foldlM_cons] at hf
      cases hs : m.variables.foldlM collectVarStep acc with
      | error e => rw [hs] at hf; simp [Bind.bind, Except.bind] at hf
      | ok acc₁ =>
          rw [hs] at hf
          simp only [Bind.bind, Except.bind] at hf
          exact ih acc₁ res (collect_inner_nodup m.variables acc acc₁ h hs) hf

theorem resolve_base_fold (asOf : DateT) :
    ∀ (varDecls : List (String × VariableDecl))
      (acc res : List (String × ResolvedVar)),
      (varDecls.map Prod.fst).Nodup →
      (∀ x ∈ varDecls.map Prod.fst, acc.lookup x = Option.none) →
      varDecls.foldlM (resolveBaseStep asOf) acc = .ok res →
      (∀ k, varDecls.lookup k = Option.none → res.lookup k = acc.lookup k) ∧
      (∀ k decl, varDecls.lookup k = some decl →
        ∃ e, pickTemporal decl.values asOf = some e ∧
          res.lookup k = some ⟨k, decl.entity, e, []⟩) := by
  intro varDecls
  induction varDecls with
  | nil =>
      intro acc res _ _ hf
      simp only [List.foldlM_nil] at hf
      cases hf
      exact ⟨fun k _ => rfl, fun k decl hk => by simp [List.lookup] at hk⟩
  | cons pd rest ih =>
      intro acc res hnd hdisj hf
      obtain ⟨p, decl⟩ := pd
      rw [List.foldlM_cons] at hf
      cases hs : resolveBaseStep asOf acc (p, decl) with
      | error e => rw [hs] at hf; simp [Bind.bind, Except.bind] at hf
      | ok acc₁ =>
          rw [hs] at hf
          simp only [Bind.bind, Except.bind] at hf
          unfold resolveBaseStep at hs
          cases hpick : pickTemporal decl.values asOf with
          | none => rw [hpick] at hs; simp at hs
          | some e =>
              rw [hpick] at hs
              simp only [Except.ok.injEq] at hs
              have hacc₁ : acc₁ = dictSet acc p ⟨p, decl.entity, e, []⟩ :=
                hs.symm
              have hndr : (rest.map Prod.fst).Nodup :=
                (List.nodup_cons.mp (by simpa using hnd)).2
              have hpnotr : p ∉ rest.map Prod.fst :=
                (List.nodup_cons.mp (by simpa using hnd)).1
              have hdisj₁ : ∀ x ∈ rest.map Prod.fst,
                  acc₁.lookup x = Option.none := by
                intro x hx
                have hxp : x ≠ p := fun hxp => hpnotr (hxp ▸ hx)
                rw [hacc₁, lookup_dictSet_ne _ _ _ _ hxp]
                exact hdisj x (by simp [hx])
              obtain ⟨ih1, ih2⟩ := ih acc₁ res hndr hdisj₁ hf
              constructor
              · intro k hk
                rw [lookup_cons] at hk
                by_cases hkp : k = p
                · rw [if_pos hkp] at hk; cases hk
                · rw [if_neg hkp] at hk
                  rw [ih1 k hk, hacc₁, lookup_dictSet_ne _ _ _ _ hkp]
              · intro k dk hk
                rw [lookup_cons] at hk
                by_cases hkp : k = p
                · rw [if_pos hkp] at hk
                  cases hk
                  subst hkp
                  have hrn : rest.lookup k = Option.none :=
                    (lookup_eq_none_iff rest k).mpr hpnotr
                  refine ⟨e, hpick, ?_⟩
                  rw [ih1 k hrn, hacc₁, lookup_dictSet_self]
                · rw [if_neg hkp] at hk
                  exact ih2 k dk hk

theorem amend_fold_none (asOf : DateT) :
    ∀ (ams : List AmendDecl) (acc res : List (String × ResolvedVar)),
      ams.foldlM (applyAmendStep asOf) acc = .ok res →
      ∀ k, acc.lookup k = Option.none → res.lookup k = Option.none := by
  intro ams
  induction ams with
  | nil =>
      intro acc res hf k hk
      simp only [List.foldlM_nil] at hf
      cases hf
      exact hk
  | cons b rest ih =>
      intro acc res hf k hk
      rw [List.foldlM_cons] at hf
      cases hs : applyAmendStep asOf acc b with
      | error e => rw [hs] at hf; simp [Bind.bind, Except.bind] at hf
      | ok acc₁ =>
          rw [hs] at hf
          simp only [Bind.bind, Except.bind] at hf
          unfold applyAmendStep at hs
          split at hs
          · cases hpick : pickTemporal b.values asOf with
            | none =>
                rw [hpick] at hs
                cases hs
                exact ih _ res hf k hk
            | some e =>
                rw [hpick] at hs
                simp only [Except.ok.injEq] at hs
                have hn₁ : acc₁.lookup k = Option.none := by
                  rw [← hs]
                  have hupd := lookup_update_target acc b.target
                    (fun rv => { rv with expr := e }) k
                  rw [hupd]
                  by_cases hkb : k = b.target
                  · rw [if_pos hkb, hk]; rfl
                  · rw [if_neg hkb]; exact hk
                exact ih acc₁ res hf k hn₁
          · simp at hs

/-- Spec-side: the concatenation, in module/source order, of the values
of every amendment that targets `k`. -/
def amendValuesFor : List AmendDecl → String → List TemporalValue
  | [], _ => []
  | a :: rest, k =>
      (if a.target = k then a.values else []) ++ amendValuesFor rest k

theorem amendValuesFor_nil_of_no_target (ams : List AmendDecl) (k : String)
    (h : ∀ a ∈ ams, a.target ≠ k) : amendValuesFor ams k = [] := by
  induction ams with
  | nil => rfl
  | cons a rest ih =>
      show (if a.target = k then a.values else []) ++ amendValuesFor rest k = []
      rw [if_neg (h a (by simp)), List.nil_append]
      exact ih (fun b hb => h b (by simp [hb]))

theorem pickTemporal_append_getD (vs₁ vs₂ : List TemporalValue) (T : DateT)
    (d : Expr) :
    (pickTemporal (vs₁ ++ vs₂) T).getD d
      = (pickTemporal vs₂ T).getD ((pickTemporal vs₁ T).getD d) := by
  rw [pickTemporal_append]
  cases pickTemporal vs₂ T <;> rfl

theorem amend_fold_lookup (asOf : DateT) :
    ∀ (ams : List AmendDecl) (acc res : List (String × ResolvedVar)),
      ams.foldlM (applyAmendStep asOf) acc = .ok res →
      ∀ k rv, acc.lookup k = some rv →
        res.lookup k = some { rv with expr :=
          (pickTemporal (amendValuesFor ams k) asOf).getD rv.expr } := by
  intro ams
  induction ams with
  | nil =>
      intro acc res hf k rv hk
      simp only [List.foldlM_nil] at hf
      cases hf
      simpa [amendValuesFor, pickTemporal] using hk
  | cons b rest ih =>
      intro acc res hf k rv hk
      rw [List.foldlM_cons] at hf
      cases hs : applyAmendStep asOf acc b with
      | error e => rw [hs] at hf; simp [Bind.bind, Except.bind] at hf
      | ok acc₁ =>
          rw [hs] at hf
          simp only [Bind.bind, Except.bind] at hf
          unfold applyAmendStep at hs
          split at hs
          · cases hpick : pickTemporal b.values asOf with
            | none =>
                rw [hpick] at hs
                cases hs
                have hres := ih _ res hf k rv hk
                rw [hres]
                show _ = some { rv with expr :=
                  (pickTemporal ((if b.target = k then b.values else []) ++
                      amendValuesFor rest k) asOf).getD rv.expr }
                by_cases hbk : b.target = k
                · rw [if_pos hbk, pickTemporal_append_getD, hpick]
                  rfl
                · rw [if_neg hbk, List.nil_append]
            | some e =>
                rw [hpick] at hs
                simp only [Except.ok.injEq] at hs
                by_cases hbk : b.target = k
                · have hacc₁ : acc₁.lookup k = some { rv with expr := e } := by
                    rw [← hs]
                    have hupd := lookup_update_target acc b.target
                      (fun rv => { rv with expr := e }) k
                    rw [hupd, if_pos hbk.symm, hk]
                    rfl
                  have hres := ih _ res hf k _ hacc₁
                  rw [hres]
                  show _ = some { rv with expr :=
                    (pickTemporal ((if b.target = k then b.values else []) ++
                        amendValuesFor rest k) asOf).getD rv.expr }
                  rw [if_pos hbk, pickTemporal_append_getD, hpick]
                  rfl
                · have hacc₁ : acc₁.lookup k = some rv := by
                    rw [← hs]
                    have hupd := lookup_update_target acc b.target
                      (fun rv => { rv with expr := e }) k
                    rw [hupd, if_neg (fun hkb => hbk hkb.symm), hk]
                  have hres := ih _ res hf k rv hacc₁
                  rw [hres]
                  show _ = some { rv with expr :=
                    (pickTemporal ((if b.target = k then b.values else []) ++
                        amendValuesFor rest k) asOf).getD rv.expr }
                  rw [if_neg hbk, List.nil_append]
          · simp at hs

theorem amend_fold_unknown (asOf : DateT) :
    ∀ (ams : List AmendDecl) (acc : List (String × ResolvedVar))
      (a : AmendDecl), a ∈ ams →
      acc.lookup a.target = Option.none →
      ∀ res, ams.foldlM (applyAmendStep asOf) acc ≠ .ok res := by
  intro ams
  induction ams with
  | nil => intro acc a ha; simp at ha
  | cons b rest ih =>
      intro acc a ha hnone res hf
      rw [List.foldlM_cons] at hf
      rcases List.mem_cons.mp ha with hab | har
      · subst hab
        unfold applyAmendStep at hf
        rw [if_neg (by simp [hnone])] at hf
        simp [Bind.bind, Except.bind] at hf
      · cases hs : applyAmendStep asOf acc b with
        | error e => rw [hs] at hf; simp [Bind.bind, Except.bind] at hf
        | ok acc₁ =>
            rw [hs] at hf
            simp only [Bind.bind, Except.bind] at hf
            unfold applyAmendStep at hs
            split at hs
            · cases hpick : pickTemporal b.values asOf with
              | none =>
                  rw [hpick] at hs
                  cases hs
                  exact ih _ a har hnone res hf
              | some e =>
                  rw [hpick] at hs
                  simp only [Except.ok.injEq] at hs
                  have hn₁ : acc₁.lookup a.target = Option.none := by
                    rw [← hs]
                    have hupd := lookup_update_target acc b.target
                      (fun rv => { rv with expr := e }) a.target
                    rw [hupd]
                    by_cases hkb : a.target = b.target
                    · rw [if_pos hkb, hnone]; rfl
                    · rw [if_neg hkb]; exact hnone
                  exact ih acc₁ a har hn₁ res hf
            · simp at hs

theorem resolveTemporal_ok_lookup {varDecls : List (String × VariableDecl)}
    {ams : List AmendDecl} {asOf : DateT}
    {resolved : List (String × ResolvedVar)}
    (hnd : (varDecls.map Prod.fst).Nodup)
    (h : resolveTemporal varDecls ams asOf = .ok resolved) :
    (∀ k, varDecls.lookup k = Option.none →
      resolved.lookup k = Option.none) ∧
    (∀ k decl, varDecls.lookup k = some decl →
      ∃ e, pickTemporal decl.values asOf = some e ∧
        resolved.lookup k = some
          { path := k, entity := decl.entity,
            expr := (pickTemporal (amendValuesFor ams k) asOf).getD e,
            deps := [] }) := by
  unfold resolveTemporal at h
  cases hb : varDecls.foldlM (resolveBaseStep asOf) [] with
  | error e => rw [hb] at h; simp [Bind.bind, Except.bind] at h
  | ok base =>
      rw [hb] at h
      simp only [Bind.bind, Except.bind] at h
      obtain ⟨h1, h2⟩ := resolve_base_fold asOf varDecls [] base hnd
        (by intro x _; simp [List.lookup]) hb
      constructor
      · intro k hk
        have hbn : base.lookup k = Option.none := by
          rw [h1 k hk]; simp [List.lookup]
        exact amend_fold_none asOf ams base resolved h k hbn
      · intro k decl hk
        obtain ⟨e, hpick, hbase⟩ := h2 k decl hk
        refine ⟨e, hpick, ?_⟩
        exact amend_fold_lookup asOf ams base resolved h k _ hbase

theorem resolveTemporal_unknown_target
    {varDecls : List (String × VariableDecl)} {ams : List AmendDecl}
    {asOf : DateT} (a : AmendDecl) (ha : a ∈ ams)
    (hnd : (varDecls.map Prod.fst).Nodup)
    (hu : varDecls.lookup a.target = Option.none) :
    ∀ res, resolveTemporal varDecls ams asOf ≠ .ok res := by
  intro res h
  unfold resolveTemporal at h
  cases hb : varDecls.foldlM (resolveBaseStep asOf) [] with
  | error e => rw [hb] at h; simp [Bind.bind, Except.bind] at h
  | ok base =>
      rw [hb] at h
      simp only [Bind.bind, Except.bind] at h
      obtain ⟨h1, _⟩ := resolve_base_fold asOf varDecls [] base hnd
        (by intro x _; simp [List.lookup]) hb
      have hbase : base.lookup a.target = Option.none := by
        rw [h1 a.target hu]; simp [List.lookup]
      exact amend_fold_unknown asOf ams base a ha hbase res h

theorem lookup_withDeps (resolved : List (String × ResolvedVar)) (k : String) :
    (withDeps resolved).lookup k
      = (resolved.lookup k).map
          (fun rv => { rv with deps := findDeps rv.expr }) := by
  unfold withDeps
  induction resolved with
  | nil => simp [List.lookup]
  | cons p rest ih =>
      obtain ⟨k₀, rv₀⟩ := p
      simp only [List.map_cons]
      rw [lookup_cons, lookup_cons]
      by_cases h : k = k₀ <;> simp [h, ih]

/-! ### Claim C1 -/

/-- C1: for a declared variable not touched by any amendment, compiling
at date `T` resolves it to the expression of the temporal value at the
maximum declaration index whose interval contains `T` (start inclusive,
end absent or `T ≤ e`) — last declared applicable value wins. -/
theorem c1_temporal_monotonicity
    {modules : List Module} {asOf : DateT} {ir : IR}
    {varDecls : List (String × VariableDecl)}
    {path : String} {decl : VariableDecl}
    (i : Nat) (hi : i < decl.values.length)
    (hc : compile modules asOf = .ok ir)
    (hv : collectVariables modules = .ok varDecls)
    (hd : varDecls.lookup path = some decl)
    (hnoamend : ∀ a ∈ collectAmendments modules, a.target ≠ path)
    (happ : ApplicableAt (decl.values.get ⟨i, hi⟩) asOf)
    (hmax : ∀ j (hj : j < decl.values.length), i < j →
      ¬ ApplicableAt (decl.values.get ⟨j, hj⟩) asOf) :
    ∃ rv, ir.variables.lookup path = some rv ∧
      rv.expr = (decl.values.get ⟨i, hi⟩).expr := by
  rw [compile_eq, hv] at hc
  replace hc :
      (match resolveTemporal varDecls (collectAmendments modules) asOf with
        | .error e => (.error e : Except CompileError IR)
        | .ok resolved =>
          match topoSort (withDeps resolved) with
          | .error e => .error e
          | .ok order =>
              .ok ⟨collectEntities modules, withDeps resolved, order⟩)
        = .ok ir := hc
  cases hr : resolveTemporal varDecls (collectAmendments modules) asOf with
  | error e => rw [hr] at hc; simp at hc
  | ok resolved =>
      rw [hr] at hc
      replace hc :
          (match topoSort (withDeps resolved) with
            | .error e => (.error e : Except CompileError IR)
            | .ok order =>
                .ok ⟨collectEntities modules, withDeps resolved, order⟩)
            = .ok ir := hc
      cases ht : topoSort (withDeps resolved) with
      | error e => rw [ht] at hc; simp at hc
      | ok order =>
          rw [ht] at hc
          simp only [Except.ok.injEq] at hc
          subst hc
          obtain ⟨_, h2⟩ := resolveTemporal_ok_lookup
            (collectVariables_nodup hv) hr
          obtain ⟨e, hpick, hres⟩ := h2 path decl hd
          have hav : amendValuesFor (collectAmendments modules) path = [] :=
            amendValuesFor_nil_of_no_target _ _ hnoamend
          rw [hav] at hres
          have hexpr : e = (decl.values.get ⟨i, hi⟩).expr := by
            have hm := pickTemporal_eq_max_applicable decl.values asOf i hi
              happ hmax
            rw [hpick] at hm
            exact Option.some.inj hm
          refine ⟨⟨path, decl.entity, e, findDeps e⟩, ?_, hexpr⟩
          show (withDeps resolved).lookup path = _
          rw [lookup_withDeps, hres]
          rfl

/-- The two-layer declaration of spec scenario 1: `gov/tax/rate` is
0.20 from 2020 and 0.22 from 2023, both open-ended. -/
def c1decl : VariableDecl :=
  { path := "gov/tax/rate",
    values := [⟨2020, Option.none, .literal (.num (20 / 100))⟩,
               ⟨2023, Option.none, .literal (.num (22 / 100))⟩] }

/-- A module holding only `c1decl`. -/
def c1mod : Module := { «variables» := [c1decl] }

/-- The IR obtained by compiling `c1mod` at date 2024. -/
def c1ir : IR :=
  ⟨⟨[]⟩,
   [("gov/tax/rate",
     ⟨"gov/tax/rate", Option.none, .literal (.num (22 / 100)), []⟩)],
   ["gov/tax/rate"]⟩

/-- C1 (witness): compiling the two-layer `gov/tax/rate` at 2024 picks
the 2023 layer (index 1), the last applicable one. -/
theorem c1_temporal_monotonicity_witness :
    ∃ rv, c1ir.variables.lookup "gov/tax/rate" = some rv ∧
      rv.expr = (c1decl.values.get ⟨1, by decide⟩).expr := by
  have hc : compile [c1mod] 2024 = .ok c1ir := rfl
  have hv : collectVariables [c1mod] = .ok [("gov/tax/rate", c1decl)] := rfl
  have hd : List.lookup "gov/tax/rate" [("gov/tax/rate", c1decl)]
      = some c1decl := rfl
  exact c1_temporal_monotonicity 1 (by decide) hc hv hd
    (by intro a ha
        rw [show collectAmendments [c1mod] = [] from rfl] at ha
        simp at ha)
    ⟨by decide, Or.inl rfl⟩
    (by intro j hj hij
        rw [show c1decl.values.length = 2 from rfl] at hj
        omega)

/-! ### Claim C2 -/

/-- A one-variable module whose single temporal value ends exactly at
date 10, used to exercise the end-date boundary. -/
def c2mod : Module :=
  { «variables» := [{ path := "gov/x",
                      values := [⟨0, some 10, .literal (.num 1)⟩] }] }

/-- C2 (counterexample): the claim says an end date is an exclusive
upper bound, so compiling at `T = e` must not select the value — yet
compiling `c2mod` (sole value ending at 10) at date 10 succeeds and
resolves `gov/x` to exactly that value's expression. -/
theorem c2_counterexample :
    compile [c2mod] 10 =
      .ok ⟨⟨[]⟩, [("gov/x", ⟨"gov/x", Option.none, .literal (.num 1), []⟩)],
            ["gov/x"]⟩ := rfl

/-- C2 (amended): the end date of a temporal value is an inclusive
upper bound: a value `(s, e, expr)` declared last is selected at every
compilation date `T` with `s ≤ T` and `T ≤ e`, in particular at
`T = e` itself. -/
theorem c2_end_date_inclusive (vs : List TemporalValue) (s e : DateT) (ex : Expr)
    (T : DateT) (hs : s ≤ T) (he : T ≤ e) :
    pickTemporal (vs ++ [⟨s, some e, ex⟩]) T = some ex := by
  rw [pickTemporal_append]
  have happ : appliesAt ⟨s, some e, ex⟩ T = true := by
    simp [appliesAt, hs, he]
  simp [pickTemporal, happ]

/-- C2 (witness): the amended theorem applied at the concrete boundary
input `s = 0`, `e = 10`, `T = 10`. -/
theorem c2_end_date_inclusive_witness :
    (0 : DateT) ≤ 10 ∧ (10 : DateT) ≤ 10 ∧
      pickTemporal [⟨0, some 10, .literal (.num 1)⟩] 10
        = some (.literal (.num 1)) :=
  ⟨by decide, by decide, by
    have h := c2_end_date_inclusive [] 0 10 (.literal (.num 1)) 10
      (by decide) (by decide)
    simpa using h⟩

/-! ### Claim C7 -/

/-- C7: for numeric operands, interpreting `a / r` never raises: it
returns `0` when the divisor is `0` and the ordinary quotient
otherwise. -/
theorem c7_division_by_zero (el er : Expr) (ctx : Context) (a r : ℚ)
    (hl : evaluate el ctx = .ok (.num a)) (hr : evaluate er ctx = .ok (.num r)) :
    evaluate (.binop "/" el er) ctx = .ok (.num (if r = 0 then 0 else a / r)) := by
  by_cases h : r = 0 <;>
    simp [evaluate, hl, hr, Bind.bind, Except.bind, pyDiv, toNum, h]

/-- C7 (witness): `5 / 0` evaluates to `0`. -/
theorem c7_division_by_zero_witness :
    evaluate (.binop "/" (.literal (.num 5)) (.literal (.num 0)))
        ⟨⟨[]⟩, [], Option.none, Option.none⟩ = .ok (.num 0) := by
  have h := c7_division_by_zero (.literal (.num 5)) (.literal (.num 0))
    ⟨⟨[]⟩, [], Option.none, Option.none⟩ 5 0 rfl rfl
  simpa using h


/-! ### Claim C4 -/

theorem collectEntities_flat (modules : List Module) :
    ∀ s : Schema,
      modules.foldl
        (fun s m => m.entities.foldl (fun s d => s.add_entity (entityOfDecl d)) s) s
      = (modules.flatMap Module.entities).foldl
          (fun s d => s.add_entity (entityOfDecl d)) s := by
  induction modules with
  | nil => intro s; rfl
  | cons m ms ih =>
      intro s
      rw [List.foldl_cons, List.flatMap_cons, List.foldl_append, ih]

theorem entities_fold_lookup (ds : List EntityDecl) :
    ∀ (s : Schema) (name : String),
      (ds.foldl (fun s d => s.add_entity (entityOfDecl d)) s).entities.lookup name
        = match ds.reverse.find? (fun d => d.name == name) with
          | some d => some (entityOfDecl d)
          | Option.none => s.entities.lookup name := by
  induction ds using List.reverseRecOn with
  | nil => intro s name; rfl
  | append_singleton ds d ih =>
      intro s name
      rw [List.foldl_append, List.foldl_cons, List.foldl_nil, List.reverse_append]
      show (Schema.add_entity _ (entityOfDecl d)).entities.lookup name = _
      unfold Schema.add_entity
      simp only [List.reverse_cons, List.reverse_nil, List.nil_append,
        List.cons_append, List.find?]
      by_cases h : d.name = name
      · have hb : (d.name == name) = true := beq_iff_eq.mpr h
        rw [hb]
        have hn : (entityOfDecl d).name = d.name := rfl
        rw [show (entityOfDecl d).name = name from hn.trans h] at *
        subst h
        exact lookup_dictSet_self _ _ _
      · have hb : (d.name == name) = false := beq_eq_false_iff_ne.mpr h
        rw [hb]
        have hne : name ≠ (entityOfDecl d).name := fun hc => h (hc.symm)
        rw [lookup_dictSet_ne _ _ _ _ hne]
        exact ih s name

/-- The first module of the C4 scenario: `person` with a float `income`
and an `extra` field. -/
def c4m1 : Module :=
  { entities := [{ name := "person",
                   fields := [("income", "float"), ("extra", "int")] }] }

/-- The second module of the C4 scenario: `person` redeclared with a
conflicting `str` type for `income` and without `extra`. -/
def c4m2 : Module :=
  { entities := [{ name := "person", fields := [("income", "str")] }] }

/-- C4 (counterexample): two modules declare entity `person` with
conflicting `income` types, yet compilation succeeds (no field-type
conflict error) and the resulting schema holds only the second
declaration's fields — the first module's `extra` field is gone, so no
union was taken. -/
theorem c4_counterexample :
    compile [c4m1, c4m2] 0 =
      .ok ⟨⟨[("person",
              { name := "person",
                fields := [("income", ⟨"income", "str", false⟩)],
                relations := [] })]⟩, [], []⟩ := rfl

/-- C4 (amended): duplicate entity declarations across modules are not
merged: the schema maps each entity name to the entity built from the
last declaration of that name (in module order, then declaration order
within a module), replacing earlier declarations wholesale; no
field-type conflict is detected. -/
theorem c4_last_entity_decl_wins (modules : List Module) (name : String) :
    (collectEntities modules).entities.lookup name
      = match (modules.flatMap Module.entities).reverse.find?
            (fun d => d.name == name) with
        | some d => some (entityOfDecl d)
        | Option.none => Option.none := by
  unfold collectEntities
  rw [collectEntities_flat, entities_fold_lookup]
  cases (modules.flatMap Module.entities).reverse.find? (fun d => d.name == name) with
  | some d => rfl
  | none => rfl


/-! ### Claim C8 -/

/-- C8: (a) an amendment whose target is not a declared variable makes
compilation fail; (b) for a declared target, the resolved expression is
the last applicable value of the amendments taken in module/source
order when one contains the date, and (c) the base resolution
otherwise — `getD` of the amendment pick over the base pick. -/
theorem c8_amendment_resolution
    {modules : List Module} {asOf : DateT}
    {varDecls : List (String × VariableDecl)}
    (hv : collectVariables modules = .ok varDecls) :
    (∀ a ∈ collectAmendments modules,
      varDecls.lookup a.target = Option.none →
      ∀ ir, compile modules asOf ≠ .ok ir) ∧
    (∀ ir, compile modules asOf = .ok ir →
      ∀ path decl, varDecls.lookup path = some decl →
        ∃ e, pickTemporal decl.values asOf = some e ∧
          ∃ rv, ir.variables.lookup path = some rv ∧
            rv.expr = (pickTemporal
              (amendValuesFor (collectAmendments modules) path) asOf).getD e) := by
  have hnd := collectVariables_nodup hv
  constructor
  · intro a ha hu ir hc
    rw [compile_eq, hv] at hc
    replace hc :
        (match resolveTemporal varDecls (collectAmendments modules) asOf with
          | .error e => (.error e : Except CompileError IR)
          | .ok resolved =>
            match topoSort (withDeps resolved) with
            | .error e => .error e
            | .ok order =>
                .ok ⟨collectEntities modules, withDeps resolved, order⟩)
          = .ok ir := hc
    cases hr : resolveTemporal varDecls (collectAmendments modules) asOf with
    | error e => rw [hr] at hc; simp at hc
    | ok resolved =>
        exact resolveTemporal_unknown_target a ha hnd hu resolved hr
  · intro ir hc path decl hd
    rw [compile_eq, hv] at hc
    replace hc :
        (match resolveTemporal varDecls (collectAmendments modules) asOf with
          | .error e => (.error e : Except CompileError IR)
          | .ok resolved =>
            match topoSort (withDeps resolved) with
            | .error e => .error e
            | .ok order =>
                .ok ⟨collectEntities modules, withDeps resolved, order⟩)
          = .ok ir := hc
    cases hr : resolveTemporal varDecls (collectAmendments modules) asOf with
    | error e => rw [hr] at hc; simp at hc
    | ok resolved =>
        rw [hr] at hc
        replace hc :
            (match topoSort (withDeps resolved) with
              | .error e => (.error e : Except CompileError IR)
              | .ok order =>
                  .ok ⟨collectEntities modules, withDeps resolved, order⟩)
              = .ok ir := hc
        cases ht : topoSort (withDeps resolved) with
        | error e => rw [ht] at hc; simp at hc
        | ok order =>
            rw [ht] at hc
            simp only [Except.ok.injEq] at hc
            subst hc
            obtain ⟨_, h2⟩ := resolveTemporal_ok_lookup hnd hr
            obtain ⟨e, hpick, hres⟩ := h2 path decl hd
            refine ⟨e, hpick, ?_⟩
            refine ⟨⟨path, decl.entity,
              (pickTemporal (amendValuesFor (collectAmendments modules) path)
                asOf).getD e,
              findDeps ((pickTemporal (amendValuesFor (collectAmendments modules)
                path) asOf).getD e)⟩, ?_, rfl⟩
            show (withDeps resolved).lookup path = _
            rw [lookup_withDeps, hres]
            rfl

/-- The base declaration of spec scenario 2: `gov/uc/allowance` is
368.74 from 2022, open-ended. -/
def c8decl : VariableDecl :=
  { path := "gov/uc/allowance",
    values := [⟨2022, Option.none, .literal (.num (36874 / 100))⟩] }

/-- A module holding only `c8decl`. -/
def c8mod : Module := { «variables» := [c8decl] }

/-- A reform module amending `gov/uc/allowance` to 400 from 2024. -/
def c8amod : Module :=
  { amendments := [{ target := "gov/uc/allowance",
                     values := [⟨2024, Option.none, .literal (.num 400)⟩] }] }

/-- The IR obtained by compiling the base plus the amendment at 2025. -/
def c8ir : IR :=
  ⟨⟨[]⟩,
   [("gov/uc/allowance",
     ⟨"gov/uc/allowance", Option.none, .literal (.num 400), []⟩)],
   ["gov/uc/allowance"]⟩

/-- C8 (witness): compiling the base plus amendment at 2025 resolves
the variable to the amendment's 400, the `getD` of the amendment pick
over the base pick. -/
theorem c8_amendment_resolution_witness :
    ∃ e, pickTemporal c8decl.values 2025 = some e ∧
      ∃ rv, c8ir.variables.lookup "gov/uc/allowance" = some rv ∧
        rv.expr = (pickTemporal
          (amendValuesFor (collectAmendments [c8mod, c8amod])
            "gov/uc/allowance") 2025).getD e := by
  have hv : collectVariables [c8mod, c8amod]
      = .ok [("gov/uc/allowance", c8decl)] := rfl
  have hc : compile [c8mod, c8amod] (2025 : DateT) = .ok c8ir := rfl
  have hd : List.lookup "gov/uc/allowance" [("gov/uc/allowance", c8decl)]
      = some c8decl := rfl
  exact (c8_amendment_resolution hv).2 c8ir hc "gov/uc/allowance" c8decl hd


/-! ### Topological-sort lemmas -/

/-- Invariant of the emitted order: it is duplicate-free and every
emitted variable's dependencies are emitted strictly before it. -/
def OrderInv (vars : List (String × ResolvedVar)) (order : List String) : Prop :=
  order.Nodup ∧
  ∀ u rv v, u ∈ order → vars.lookup u = some rv → v ∈ rv.deps →
    v ∈ order ∧ order.indexOf v < order.indexOf u

theorem orderInv_append (vars : List (String × ResolvedVar))
    (order : List String) (p : String)
    (hInv : OrderInv vars order) (hp : p ∉ order)
    (hdeps : ∀ rv, vars.lookup p = some rv → ∀ v ∈ rv.deps, v ∈ order) :
    OrderInv vars (order ++ [p]) := by
  obtain ⟨hnd, hedge⟩ := hInv
  constructor
  · simp [List.nodup_append, hnd, hp]
  · intro u rv v hu hlk hv
    rcases List.mem_append.mp hu with hu₁ | hu₂
    · obtain ⟨hvmem, hidx⟩ := hedge u rv v hu₁ hlk hv
      refine ⟨List.mem_append.mpr (Or.inl hvmem), ?_⟩
      rw [List.indexOf_append_of_mem hvmem, List.indexOf_append_of_mem hu₁]
      exact hidx
    · have hup : u = p := by simpa using hu₂
      subst hup
      have hvmem := hdeps rv hlk v hv
      refine ⟨List.mem_append.mpr (Or.inl hvmem), ?_⟩
      rw [List.indexOf_append_of_mem hvmem,
        List.indexOf_append_of_not_mem hp]
      have : order.indexOf v < order.length :=
        List.indexOf_lt_length.mpr hvmem
      simp only [List.indexOf_cons_self]
      omega

/-- Postcondition of a successful `visit`: `visited` and `order` stay
equal, the order only grows by paths not on the stack, the visited path
ends up in the order, and the order invariant is preserved. -/
def VisitPost (vars : List (String × ResolvedVar)) (temp : List String)
    (st st' : TopoState) (path : String) : Prop :=
  (st.visited = st.order →
    st'.visited = st'.order ∧
    (∃ Δ, st'.order = st.order ++ Δ ∧ ∀ x ∈ Δ, x ∉ temp) ∧
    path ∈ st'.order ∧
    (OrderInv vars st.order → OrderInv vars st'.order))

theorem visitFold_ok_post_of (vars : List (String × ResolvedVar))
    (fuel : Nat) (temp : List String)
    (hv : ∀ st path st', visit vars fuel temp st path = .ok st' →
      VisitPost vars temp st st' path) :
    ∀ (ds : List String) (st stf : TopoState),
      ds.foldlM (fun s d => visit vars fuel temp s d) st = .ok stf →
      st.visited = st.order →
      (stf.visited = stf.order ∧
       (∃ Δ, stf.order = st.order ++ Δ ∧ ∀ x ∈ Δ, x ∉ temp) ∧
       (∀ d ∈ ds, d ∈ stf.order) ∧
       (OrderInv vars st.order → OrderInv vars stf.order)) := by
  intro ds
  induction ds with
  | nil =>
      intro st stf hf hvo
      simp only [List.foldlM_nil] at hf
      cases hf
      exact ⟨hvo, ⟨[], by simp⟩, by simp, fun h => h⟩
  | cons d ds ih =>
      intro st stf hf hvo
      rw [List.foldlM_cons] at hf
      cases hs : visit vars fuel temp st d with
      | error e => rw [hs] at hf; simp [Bind.bind, Except.bind] at hf
      | ok st₁ =>
          rw [hs] at hf
          simp only [Bind.bind, Except.bind] at hf
          obtain ⟨hvo₁, ⟨Δ₁, hΔ₁, hΔ₁t⟩, hd₁, hinv₁⟩ := hv st d st₁ hs hvo
          obtain ⟨hvof, ⟨Δ₂, hΔ₂, hΔ₂t⟩, hdf, hinvf⟩ := ih st₁ stf hf hvo₁
          refine ⟨hvof, ⟨Δ₁ ++ Δ₂, ?_, ?_⟩, ?_, fun h => hinvf (hinv₁ h)⟩
          · rw [hΔ₂, hΔ₁, List.append_assoc]
          · intro x hx
            rcases List.mem_append.mp hx with h₁ | h₂
            · exact hΔ₁t x h₁
            · exact hΔ₂t x h₂
          · intro d₀ hd₀
            rcases List.mem_cons.mp hd₀ with h₁ | h₂
            · subst h₁
              rw [hΔ₂]
              exact List.mem_append.mpr (Or.inl hd₁)
            · exact hdf d₀ h₂

theorem visit_ok_post (vars : List (String × ResolvedVar)) :
    ∀ (fuel : Nat) (temp : List String) (st : TopoState) (path : String)
      (st' : TopoState),
      visit vars fuel temp st path = .ok st' →
      VisitPost vars temp st st' path := by
  intro fuel
  induction fuel with
  | zero => intro temp st path st' h; simp [visit] at h
  | succ fuel ih =>
      intro temp st path st' h hvo
      simp only [visit] at h
      by_cases hmem : path ∈ temp
      · rw [if_pos hmem] at h; simp at h
      · rw [if_neg hmem] at h
        by_cases hvis : path ∈ st.visited
        · rw [if_pos hvis] at h
          cases h
          exact ⟨hvo, ⟨[], by simp⟩, by rw [← hvo]; exact hvis, fun h => h⟩
        · rw [if_neg hvis] at h
          cases hlk : vars.lookup path with
          | none =>
              rw [hlk] at h
              simp only [Except.ok.injEq] at h
              subst h
              refine ⟨by simp [hvo], ⟨[path], by simp, ?_⟩, by simp, ?_⟩
              · intro x hx
                rw [List.mem_singleton] at hx
                subst hx
                exact hmem
              · intro hInv
                refine orderInv_append vars st.order path hInv
                  (by rw [← hvo]; exact hvis) ?_
                intro rv hrv
                rw [hrv] at hlk
                cases hlk
          | some rv =>
              rw [hlk] at h
              replace h :
                  (do
                    let stf ← rv.deps.foldlM
                      (fun st₀ d => visit vars fuel (temp ++ [path]) st₀ d) st
                    Except.ok (⟨stf.visited ++ [path], stf.order ++ [path]⟩ :
                      TopoState))
                    = Except.ok st' := h
              cases hfold : rv.deps.foldlM
                  (fun st₀ d => visit vars fuel (temp ++ [path]) st₀ d) st with
              | error e =>
                  rw [hfold] at h
                  simp [Bind.bind, Except.bind] at h
              | ok stf =>
                  rw [hfold] at h
                  simp only [Bind.bind, Except.bind, Except.ok.injEq] at h
                  subst h
                  have hpost := visitFold_ok_post_of vars fuel (temp ++ [path])
                    (fun st p st' hs => ih (temp ++ [path]) st p st' hs)
                    rv.deps st stf hfold hvo
                  obtain ⟨hvof, ⟨Δf, hΔf, hΔft⟩, hdf, hinvf⟩ := hpost
                  have hpnot : path ∉ stf.order := by
                    rw [hΔf]
                    intro hc
                    rcases List.mem_append.mp hc with h₁ | h₂
                    · rw [← hvo] at h₁; exact hvis h₁
                    · exact hΔft path h₂ (by simp)
                  refine ⟨by simp [hvof], ⟨Δf ++ [path], ?_, ?_⟩, by simp, ?_⟩
                  · show stf.order ++ [path] = st.order ++ (Δf ++ [path])
                    rw [hΔf, List.append_assoc]
                  · intro x hx
                    rcases List.mem_append.mp hx with h₁ | h₂
                    · intro hc
                      exact hΔft x h₁ (List.mem_append.mpr (Or.inl hc))
                    · rw [List.mem_singleton] at h₂
                      subst h₂
                      exact hmem
                  · intro hInv
                    show OrderInv vars (stf.order ++ [path])
                    refine orderInv_append vars stf.order path
                      (hinvf hInv) hpnot ?_
                    intro rv₀ hrv₀ v hv
                    rw [hlk] at hrv₀
                    cases hrv₀
                    exact hdf v hv

theorem topoFold_post (vars : List (String × ResolvedVar)) :
    ∀ (l : List (String × ResolvedVar)) (st stf : TopoState),
      l.foldlM (fun st pv => visit vars (vars.length + 1) [] st pv.1) st
        = .ok stf →
      st.visited = st.order →
      (stf.visited = stf.order ∧
       (∃ Δ, stf.order = st.order ++ Δ) ∧
       (∀ pv ∈ l, pv.1 ∈ stf.order) ∧
       (OrderInv vars st.order → OrderInv vars stf.order)) := by
  intro l
  induction l with
  | nil =>
      intro st stf hf hvo
      simp only [List.foldlM_nil] at hf
      cases hf
      exact ⟨hvo, ⟨[], by simp⟩, by simp, fun h => h⟩
  | cons pv l ih =>
      intro st stf hf hvo
      rw [List.foldlM_cons] at hf
      cases hs : visit vars (vars.length + 1) [] st pv.1 with
      | error e => rw [hs] at hf; simp [Bind.bind, Except.bind] at hf
      | ok st₁ =>
          rw [hs] at hf
          simp only [Bind.bind, Except.bind] at hf
          obtain ⟨hvo₁, ⟨Δ₁, hΔ₁, _⟩, hd₁, hinv₁⟩ :=
            visit_ok_post vars (vars.length + 1) [] st pv.1 st₁ hs hvo
          obtain ⟨hvof, ⟨Δ₂, hΔ₂⟩, hdf, hinvf⟩ := ih st₁ stf hf hvo₁
          refine ⟨hvof, ⟨Δ₁ ++ Δ₂, by rw [hΔ₂, hΔ₁, List.append_assoc]⟩,
            ?_, fun h => hinvf (hinv₁ h)⟩
          intro pv₀ hpv₀
          rcases List.mem_cons.mp hpv₀ with h₁ | h₂
          · subst h₁
            rw [hΔ₂]
            exact List.mem_append.mpr (Or.inl hd₁)
          · exact hdf pv₀ h₂

theorem topoSort_ok_inv {vars : List (String × ResolvedVar)}
    {order : List String} (h : topoSort vars = .ok order) :
    OrderInv vars order ∧ ∀ pv ∈ vars, pv.1 ∈ order := by
  unfold topoSort at h
  cases hf : vars.foldlM
      (fun st pv => visit vars (vars.length + 1) [] st pv.1)
      ({} : TopoState) with
  | error e => rw [hf] at h; simp [Bind.bind, Except.bind] at h
  | ok stf =>
      rw [hf] at h
      simp only [Bind.bind, Except.bind, Except.ok.injEq] at h
      subst h
      obtain ⟨_, _, hmem, hinv⟩ := topoFold_post vars vars ({} : TopoState)
        stf hf rfl
      refine ⟨hinv ⟨List.nodup_nil, by simp⟩, hmem⟩


/-! ### Claim C5 -/

/-- C5: in a successfully compiled IR, every dependency edge `u → v`
(variable `u`'s resolved expression references declared variable path
`v`) has `v` strictly before `u` in `IR.order`. -/
theorem c5_topological_correctness
    {modules : List Module} {asOf : DateT} {ir : IR}
    (hc : compile modules asOf = .ok ir)
    (u v : String) (rvu rvv : ResolvedVar)
    (hu : ir.variables.lookup u = some rvu)
    (hdep : v ∈ rvu.deps)
    (hvd : ir.variables.lookup v = some rvv) :
    u ∈ ir.order ∧ v ∈ ir.order ∧
      ir.order.indexOf v < ir.order.indexOf u := by
  rw [compile_eq] at hc
  cases h₁ : collectVariables modules with
  | error e => rw [h₁] at hc; simp at hc
  | ok varDecls =>
      rw [h₁] at hc
      replace hc :
          (match resolveTemporal varDecls (collectAmendments modules) asOf with
            | .error e => (.error e : Except CompileError IR)
            | .ok resolved =>
              match topoSort (withDeps resolved) with
              | .error e => .error e
              | .ok order =>
                  .ok ⟨collectEntities modules, withDeps resolved, order⟩)
            = .ok ir := hc
      cases hr : resolveTemporal varDecls (collectAmendments modules) asOf with
      | error e => rw [hr] at hc; simp at hc
      | ok resolved =>
          rw [hr] at hc
          replace hc :
              (match topoSort (withDeps resolved) with
                | .error e => (.error e : Except CompileError IR)
                | .ok order =>
                    .ok ⟨collectEntities modules, withDeps resolved, order⟩)
                = .ok ir := hc
          cases ht : topoSort (withDeps resolved) with
          | error e => rw [ht] at hc; simp at hc
          | ok order =>
              rw [ht] at hc
              simp only [Except.ok.injEq] at hc
              subst hc
              obtain ⟨⟨hnd, hedge⟩, hall⟩ := topoSort_ok_inv ht
              have humem : u ∈ order := by
                have hk := lookup_some_mem_keys hu
                obtain ⟨pv, hpv, hfst⟩ := List.mem_map.mp hk
                exact hfst ▸ hall pv hpv
              obtain ⟨hvmem, hidx⟩ := hedge u rvu v humem hu hdep
              exact ⟨humem, hvmem, hidx⟩

/-- A module with a scalar `g/a` and a scalar `g/b` that depends on
it. -/
def c5mod : Module :=
  { «variables» :=
      [{ path := "g/a", values := [⟨0, Option.none, .literal (.num 1)⟩] },
       { path := "g/b",
         values := [⟨0, Option.none,
           .binop "+" (.var "g/a") (.literal (.num 1))⟩] }] }

/-- The IR obtained by compiling `c5mod` at date 0. -/
def c5ir : IR :=
  ⟨⟨[]⟩,
   [("g/a", ⟨"g/a", Option.none, .literal (.num 1), []⟩),
    ("g/b", ⟨"g/b", Option.none,
      .binop "+" (.var "g/a") (.literal (.num 1)), ["g/a"]⟩)],
   ["g/a", "g/b"]⟩

/-- C5 (witness): for the edge `g/b → g/a` of the compiled `c5mod`,
`g/a` precedes `g/b` in the order. -/
theorem c5_topological_correctness_witness :
    "g/b" ∈ c5ir.order ∧ "g/a" ∈ c5ir.order ∧
      c5ir.order.indexOf "g/a" < c5ir.order.indexOf "g/b" := by
  have hc : compile [c5mod] 0 = .ok c5ir := rfl
  have hu : c5ir.variables.lookup "g/b"
      = some ⟨"g/b", Option.none,
          .binop "+" (.var "g/a") (.literal (.num 1)), ["g/a"]⟩ := rfl
  have hvd : c5ir.variables.lookup "g/a"
      = some ⟨"g/a", Option.none, .literal (.num 1), []⟩ := rfl
  exact c5_topological_correctness hc "g/b" "g/a" _ _ hu (by simp) hvd


/-! ### Cycle-detection lemmas -/

theorem visitFold_err_circular_of (vars : List (String × ResolvedVar))
    (fuel : Nat) (temp : List String)
    (hv : ∀ st path e, visit vars fuel temp st path = .error e →
      ∃ c, e = CompileError.circularDependency c) :
    ∀ (ds : List String) (st : TopoState) (e : CompileError),
      ds.foldlM (fun s d => visit vars fuel temp s d) st = .error e →
      ∃ c, e = CompileError.circularDependency c := by
  intro ds
  induction ds with
  | nil => intro st e hf; simp [List.foldlM_nil, pure, Except.pure] at hf
  | cons d ds ih =>
      intro st e hf
      rw [List.foldlM_cons] at hf
      cases hs : visit vars fuel temp st d with
      | error e₁ =>
          rw [hs] at hf
          simp only [Bind.bind, Except.bind, Except.error.injEq] at hf
          subst hf
          exact hv st d e₁ hs
      | ok st₁ =>
          rw [hs] at hf
          simp only [Bind.bind, Except.bind] at hf
          exact ih st₁ e hf

theorem visit_err_circular (vars : List (String × ResolvedVar)) :
    ∀ (fuel : Nat) (temp : List String) (st : TopoState) (path : String)
      (e : CompileError),
      temp.Nodup → (∀ t ∈ temp, t ∈ vars.map Prod.fst) →
      vars.length + 1 ≤ fuel + temp.length →
      visit vars fuel temp st path = .error e →
      ∃ c, e = CompileError.circularDependency c := by
  intro fuel
  induction fuel with
  | zero =>
      intro temp st path e hnd hsub hfuel _
      have hle : temp.length ≤ vars.length := by
        have hsp := (hnd.subperm (fun t ht => hsub t ht)).length_le
        simpa using hsp
      omega
  | succ fuel ih =>
      intro temp st path e hnd hsub hfuel h
      simp only [visit] at h
      by_cases hmem : path ∈ temp
      · rw [if_pos hmem] at h
        simp only [Except.error.injEq] at h
        exact ⟨path, h.symm⟩
      · rw [if_neg hmem] at h
        by_cases hvis : path ∈ st.visited
        · rw [if_pos hvis] at h; simp at h
        · rw [if_neg hvis] at h
          cases hlk : vars.lookup path with
          | none => rw [hlk] at h; simp at h
          | some rv =>
              rw [hlk] at h
              replace h :
                  (do
                    let stf ← rv.deps.foldlM
                      (fun st₀ d => visit vars fuel (temp ++ [path]) st₀ d) st
                    Except.ok (⟨stf.visited ++ [path], stf.order ++ [path]⟩ :
                      TopoState))
                    = Except.error e := h
              cases hfold : rv.deps.foldlM
                  (fun st₀ d => visit vars fuel (temp ++ [path]) st₀ d) st with
              | ok stf => rw [hfold] at h; simp [Bind.bind, Except.bind] at h
              | error e₁ =>
                  rw [hfold] at h
                  simp only [Bind.bind, Except.bind, Except.error.injEq] at h
                  subst h
                  have hnd₁ : (temp ++ [path]).Nodup := by
                    simp [List.nodup_append, hnd, hmem]
                  have hsub₁ : ∀ t ∈ temp ++ [path], t ∈ vars.map Prod.fst := by
                    intro t ht
                    rcases List.mem_append.mp ht with h₁ | h₂
                    · exact hsub t h₁
                    · rw [List.mem_singleton] at h₂
                      subst h₂
                      exact lookup_some_mem_keys hlk
                  have hfuel₁ : vars.length + 1 ≤ fuel + (temp ++ [path]).length := by
                    simp only [List.length_append, List.length_singleton]
                    omega
                  exact visitFold_err_circular_of vars fuel (temp ++ [path])
                    (fun st₀ p₀ e₀ hs₀ =>
                      ih (temp ++ [path]) st₀ p₀ e₀ hnd₁ hsub₁ hfuel₁ hs₀)
                    rv.deps st e₁ hfold

theorem topoSort_err_circular {vars : List (String × ResolvedVar)}
    {e : CompileError} (h : topoSort vars = .error e) :
    ∃ c, e = CompileError.circularDependency c := by
  unfold topoSort at h
  suffices hgen : ∀ (l : List (String × ResolvedVar)) (st : TopoState),
      l.foldlM (fun st pv => visit vars (vars.length + 1) [] st pv.1) st
        = .error e →
      ∃ c, e = CompileError.circularDependency c by
    cases hf : vars.foldlM
        (fun st pv => visit vars (vars.length + 1) [] st pv.1)
        ({} : TopoState) with
    | error e₁ =>
        rw [hf] at h
        simp only [Bind.bind, Except.bind, Except.error.injEq] at h
        subst h
        exact hgen vars {} hf
    | ok stf => rw [hf] at h; simp [Bind.bind, Except.bind] at h
  intro l
  induction l with
  | nil => intro st hf; simp [List.foldlM_nil, pure, Except.pure] at hf
  | cons pv l ih =>
      intro st hf
      rw [List.foldlM_cons] at hf
      cases hs : visit vars (vars.length + 1) [] st pv.1 with
      | error e₁ =>
          rw [hs] at hf
          simp only [Bind.bind, Except.bind, Except.error.injEq] at hf
          subst hf
          exact visit_err_circular vars (vars.length + 1) [] st pv.1 e₁
            List.nodup_nil (by simp) (by simp) hs
      | ok st₁ =>
          rw [hs] at hf
          simp only [Bind.bind, Except.bind] at hf
          exact ih st₁ hf

theorem visitFold_err_cycle_of (vars : List (String × ResolvedVar))
    (fuel : Nat) (temp : List String)
    (hv : ∀ st path c, (∀ x ∈ temp, Relation.TransGen (DepEdge vars) x path) →
      visit vars fuel temp st path = .error (.circularDependency c) →
      Relation.TransGen (DepEdge vars) c c) :
    ∀ (ds : List String) (st : TopoState) (c : String),
      (∀ d ∈ ds, ∀ x ∈ temp, Relation.TransGen (DepEdge vars) x d) →
      ds.foldlM (fun s d => visit vars fuel temp s d) st
        = .error (.circularDependency c) →
      Relation.TransGen (DepEdge vars) c c := by
  intro ds
  induction ds with
  | nil => intro st c _ hf; simp [List.foldlM_nil, pure, Except.pure] at hf
  | cons d ds ih =>
      intro st c hall hf
      rw [List.foldlM_cons] at hf
      cases hs : visit vars fuel temp st d with
      | error e₁ =>
          rw [hs] at hf
          simp only [Bind.bind, Except.bind, Except.error.injEq] at hf
          subst hf
          exact hv st d c (hall d (by simp)) hs
      | ok st₁ =>
          rw [hs] at hf
          simp only [Bind.bind, Except.bind] at hf
          exact ih st₁ c (fun d₀ hd₀ => hall d₀ (by simp [hd₀])) hf

theorem visit_err_cycle (vars : List (String × ResolvedVar)) :
    ∀ (fuel : Nat) (temp : List String) (st : TopoState) (path c : String),
      (∀ x ∈ temp, Relation.TransGen (DepEdge vars) x path) →
      visit vars fuel temp st path = .error (.circularDependency c) →
      Relation.TransGen (DepEdge vars) c c := by
  intro fuel
  induction fuel with
  | zero => intro temp st path c _ h; simp [visit] at h
  | succ fuel ih =>
      intro temp st path c hall h
      simp only [visit] at h
      by_cases hmem : path ∈ temp
      · rw [if_pos hmem] at h
        simp only [Except.error.injEq, CompileError.circularDependency.injEq] at h
        subst h
        exact hall path hmem
      · rw [if_neg hmem] at h
        by_cases hvis : path ∈ st.visited
        · rw [if_pos hvis] at h; simp at h
        · rw [if_neg hvis] at h
          cases hlk : vars.lookup path with
          | none => rw [hlk] at h; simp at h
          | some rv =>
              rw [hlk] at h
              replace h :
                  (do
                    let stf ← rv.deps.foldlM
                      (fun st₀ d => visit vars fuel (temp ++ [path]) st₀ d) st
                    Except.ok (⟨stf.visited ++ [path], stf.order ++ [path]⟩ :
                      TopoState))
                    = Except.error (.circularDependency c) := h
              cases hfold : rv.deps.foldlM
                  (fun st₀ d => visit vars fuel (temp ++ [path]) st₀ d) st with
              | ok stf => rw [hfold] at h; simp [Bind.bind, Except.bind] at h
              | error e₁ =>
                  rw [hfold] at h
                  simp only [Bind.bind, Except.bind, Except.error.injEq] at h
                  subst h
                  have hall₁ : ∀ d ∈ rv.deps, ∀ x ∈ temp ++ [path],
                      Relation.TransGen (DepEdge vars) x d := by
                    intro d hd x hx
                    have hedge : DepEdge vars path d := ⟨rv, hlk, hd⟩
                    rcases List.mem_append.mp hx with h₁ | h₂
                    · exact (hall x h₁).tail hedge
                    · rw [List.mem_singleton] at h₂
                      subst h₂
                      exact Relation.TransGen.single hedge
                  exact visitFold_err_cycle_of vars fuel (temp ++ [path])
                    (fun st₀ p₀ c₀ hall₀ hs₀ =>
                      ih (temp ++ [path]) st₀ p₀ c₀ hall₀ hs₀)
                    rv.deps st c hall₁ hfold

theorem topoSort_err_cycle {vars : List (String × ResolvedVar)} {c : String}
    (h : topoSort vars = .error (.circularDependency c)) :
    Relation.TransGen (DepEdge vars) c c := by
  unfold topoSort at h
  suffices hgen : ∀ (l : List (String × ResolvedVar)) (st : TopoState),
      l.foldlM (fun st pv => visit vars (vars.length + 1) [] st pv.1) st
        = .error (.circularDependency c) →
      Relation.TransGen (DepEdge vars) c c by
    cases hf : vars.foldlM
        (fun st pv => visit vars (vars.length + 1) [] st pv.1)
        ({} : TopoState) with
    | error e₁ =>
        rw [hf] at h
        simp only [Bind.bind, Except.bind, Except.error.injEq] at h
        subst h
        exact hgen vars {} hf
    | ok stf => rw [hf] at h; simp [Bind.bind, Except.bind] at h
  intro l
  induction l with
  | nil => intro st hf; simp [List.foldlM_nil, pure, Except.pure] at hf
  | cons pv l ih =>
      intro st hf
      rw [List.foldlM_cons] at hf
      cases hs : visit vars (vars.length + 1) [] st pv.1 with
      | error e₁ =>
          rw [hs] at hf
          simp only [Bind.bind, Except.bind, Except.error.injEq] at hf
          subst hf
          exact visit_err_cycle vars (vars.length + 1) [] st pv.1 c
            (by simp) hs
      | ok st₁ =>
          rw [hs] at hf
          simp only [Bind.bind, Except.bind] at hf
          exact ih st₁ hf

theorem transGen_edge_out {vars : List (String × ResolvedVar)} {a b : String}
    (h : Relation.TransGen (DepEdge vars) a b) : ∃ x, DepEdge vars a x := by
  induction h with
  | single e => exact ⟨_, e⟩
  | tail _ _ ih => exact ih

theorem transGen_index {vars : List (String × ResolvedVar)}
    {order : List String} (hInv : OrderInv vars order)
    (a b : String) (h : Relation.TransGen (DepEdge vars) a b)
    (ha : a ∈ order) :
    b ∈ order ∧ order.indexOf b < order.indexOf a := by
  induction h with
  | single e =>
      obtain ⟨rv, hlk, hdep⟩ := e
      exact hInv.2 a rv _ ha hlk hdep
  | tail _ e ih =>
      obtain ⟨hb₀, hidx⟩ := ih
      obtain ⟨rv, hlk, hdep⟩ := e
      obtain ⟨hb, hidx'⟩ := hInv.2 _ rv _ hb₀ hlk hdep
      exact ⟨hb, lt_trans hidx' hidx⟩

theorem no_cycle_of_topoSort_ok {vars : List (String × ResolvedVar)}
    {order : List String} (h : topoSort vars = .ok order) :
    ¬ HasCycle vars := by
  rintro ⟨p, htg⟩
  obtain ⟨hInv, hall⟩ := topoSort_ok_inv h
  obtain ⟨x, rv, hlk, _⟩ := transGen_edge_out htg
  have hp : p ∈ order := by
    have hk := lookup_some_mem_keys hlk
    obtain ⟨pv, hpv, hfst⟩ := List.mem_map.mp hk
    exact hfst ▸ hall pv hpv
  obtain ⟨_, hidx⟩ := transGen_index hInv p p htg hp
  exact lt_irrefl _ hidx

/-! ### Claim C6 -/

/-- C6: once collection and temporal resolution succeed, `compile`
raises a circular-dependency error naming a path on a cycle if and only
if the dependency graph over the compiled variables has a cycle, and
otherwise returns an IR. -/
theorem c6_cycle_detection_soundness
    {modules : List Module} {asOf : DateT}
    {varDecls : List (String × VariableDecl)}
    {resolved : List (String × ResolvedVar)}
    (hv : collectVariables modules = .ok varDecls)
    (hr : resolveTemporal varDecls (collectAmendments modules) asOf
      = .ok resolved) :
    ((∃ c, compile modules asOf = .error (.circularDependency c) ∧
        Relation.TransGen (DepEdge (withDeps resolved)) c c)
      ↔ HasCycle (withDeps resolved)) ∧
    (¬ HasCycle (withDeps resolved) →
      ∃ ir, compile modules asOf = .ok ir) := by
  have hce := compile_eq modules asOf
  rw [hv] at hce
  replace hce : compile modules asOf =
      (match resolveTemporal varDecls (collectAmendments modules) asOf with
        | .error e => (.error e : Except CompileError IR)
        | .ok resolved =>
          match topoSort (withDeps resolved) with
          | .error e => .error e
          | .ok order =>
              .ok ⟨collectEntities modules, withDeps resolved, order⟩) := hce
  rw [hr] at hce
  replace hce : compile modules asOf =
      (match topoSort (withDeps resolved) with
        | .error e => (.error e : Except CompileError IR)
        | .ok order =>
            .ok ⟨collectEntities modules, withDeps resolved, order⟩) := hce
  constructor
  · constructor
    · rintro ⟨c, _, htg⟩
      exact ⟨c, htg⟩
    · rintro ⟨p, htg⟩
      cases ht : topoSort (withDeps resolved) with
      | ok order => exact absurd ⟨p, htg⟩ (no_cycle_of_topoSort_ok ht)
      | error e =>
          obtain ⟨c, hc⟩ := topoSort_err_circular ht
          subst hc
          refine ⟨c, ?_, topoSort_err_cycle ht⟩
          rw [hce, ht]
  · intro hnc
    cases ht : topoSort (withDeps resolved) with
    | ok order => exact ⟨_, by rw [hce, ht]⟩
    | error e =>
        obtain ⟨c, hc⟩ := topoSort_err_circular ht
        subst hc
        exact absurd ⟨c, topoSort_err_cycle ht⟩ hnc

/-- The first half of the mutually recursive pair of spec scenario 4:
`g/a = g/b + 1`. -/
def c6adecl : VariableDecl :=
  { path := "g/a",
    values := [⟨0, Option.none,
      .binop "+" (.var "g/b") (.literal (.num 1))⟩] }

/-- The second half of the pair: `g/b = g/a + 1`. -/
def c6bdecl : VariableDecl :=
  { path := "g/b",
    values := [⟨0, Option.none,
      .binop "+" (.var "g/a") (.literal (.num 1))⟩] }

/-- The module of spec scenario 4 holding the cyclic pair. -/
def c6mod : Module := { «variables» := [c6adecl, c6bdecl] }

/-- The temporal resolution of `c6mod` at date 0, before dependency
computation. -/
def c6resolved : List (String × ResolvedVar) :=
  [("g/a", ⟨"g/a", Option.none,
     .binop "+" (.var "g/b") (.literal (.num 1)), []⟩),
   ("g/b", ⟨"g/b", Option.none,
     .binop "+" (.var "g/a") (.literal (.num 1)), []⟩)]

/-- C6 (witness): the iff and the no-cycle completeness instantiated on
the two-variable cyclic module. -/
theorem c6_cycle_detection_soundness_witness :
    ((∃ c, compile [c6mod] 0 = .error (.circularDependency c) ∧
        Relation.TransGen (DepEdge (withDeps c6resolved)) c c)
      ↔ HasCycle (withDeps c6resolved)) ∧
    (¬ HasCycle (withDeps c6resolved) →
      ∃ ir, compile [c6mod] 0 = .ok ir) := by
  have hv : collectVariables [c6mod]
      = .ok [("g/a", c6adecl), ("g/b", c6bdecl)] := rfl
  have hr : resolveTemporal [("g/a", c6adecl), ("g/b", c6bdecl)]
      (collectAmendments [c6mod]) 0 = .ok c6resolved := rfl
  exact c6_cycle_detection_soundness hv hr


/-! ### Claim C3 -/

mutual
/-- Modelled from the spec wording of claim C3: every `Var` path
occurring anywhere in the expression tree, including the pattern
position of `Match` cases. -/
def specVarPaths : Expr → List String
  | .literal _ => []
  | .var path => [path]
  | .binop _ l r => specVarPaths l ++ specVarPaths r
  | .unaryop _ o => specVarPaths o
  | .call _ args => specVarPathsList args
  | .fieldAccess obj _ => specVarPaths obj
  | .matchE subject cases dflt =>
      specVarPaths subject ++ specVarPathsCases cases ++
        (match dflt with
         | some d => specVarPaths d
         | Option.none => [])
  | .cond c t e => specVarPaths c ++ specVarPaths t ++ specVarPaths e

def specVarPathsList : List Expr → List String
  | [] => []
  | e :: es => specVarPaths e ++ specVarPathsList es

def specVarPathsCases : List (Expr × Expr) → List String
  | [] => []
  | (pat, res) :: rest =>
      specVarPaths pat ++ specVarPaths res ++ specVarPathsCases rest
end

mutual
/-- The `Var` paths the dependency walk actually visits: as
`specVarPaths` but with `Match` case patterns excluded. -/
def varPathsNoPat : Expr → List String
  | .literal _ => []
  | .var path => [path]
  | .binop _ l r => varPathsNoPat l ++ varPathsNoPat r
  | .unaryop _ o => varPathsNoPat o
  | .call _ args => varPathsNoPatList args
  | .fieldAccess obj _ => varPathsNoPat obj
  | .matchE subject cases dflt =>
      varPathsNoPat subject ++ varPathsNoPatCases cases ++
        (match dflt with
         | some d => varPathsNoPat d
         | Option.none => [])
  | .cond c t e => varPathsNoPat c ++ varPathsNoPat t ++ varPathsNoPat e

def varPathsNoPatList : List Expr → List String
  | [] => []
  | e :: es => varPathsNoPat e ++ varPathsNoPatList es

def varPathsNoPatCases : List (Expr × Expr) → List String
  | [] => []
  | (_, res) :: rest => varPathsNoPat res ++ varPathsNoPatCases rest
end

theorem insertDep_mem (deps : List String) (q p : String) :
    p ∈ insertDep deps q ↔ p ∈ deps ∨ p = q := by
  unfold insertDep
  by_cases h : q ∈ deps
  · rw [if_pos h]
    constructor
    · exact Or.inl
    · rintro (hp | hp)
      · exact hp
      · exact hp ▸ h
  · rw [if_neg h]
    simp

mutual
def walkDeps_mem (e : Expr) :
    ∀ (acc : List String) (p : String),
      p ∈ walkDeps e acc ↔
        p ∈ acc ∨ (p ∈ varPathsNoPat e ∧ p.data.contains '/' = true) := by
  cases e with
  | literal v => intro acc p; simp [walkDeps, varPathsNoPat]
  | var path =>
      intro acc p
      simp only [walkDeps, varPathsNoPat]
      by_cases h : path.data.contains '/'
      · rw [if_pos h, insertDep_mem]
        constructor
        · rintro (hp | hp)
          · exact Or.inl hp
          · exact Or.inr ⟨by simp [hp], hp ▸ h⟩
        · rintro (hp | ⟨hp, _⟩)
          · exact Or.inl hp
          · exact Or.inr (by simpa using hp)
      · rw [if_neg h]
        constructor
        · exact Or.inl
        · rintro (hp | ⟨hp, hc⟩)
          · exact hp
          · rw [List.mem_singleton] at hp
            exact absurd (hp ▸ hc) h
  | binop op l r =>
      intro acc p
      simp only [walkDeps, varPathsNoPat]
      rw [walkDeps_mem r, walkDeps_mem l]
      simp only [List.mem_append]
      tauto
  | unaryop op o =>
      intro acc p
      simp only [walkDeps, varPathsNoPat]
      rw [walkDeps_mem o]
  | call f args =>
      intro acc p
      simp only [walkDeps, varPathsNoPat]
      rw [walkDepsList_mem args]
  | fieldAccess obj fld =>
      intro acc p
      simp only [walkDeps, varPathsNoPat]
      rw [walkDeps_mem obj]
  | matchE s cases dflt =>
      intro acc p
      cases dflt with
      | none =>
          rw [show walkDeps (.matchE s cases Option.none) acc
              = walkDepsCases cases (walkDeps s acc) from rfl]
          rw [show varPathsNoPat (.matchE s cases Option.none)
              = varPathsNoPat s ++ varPathsNoPatCases cases ++ [] from rfl]
          rw [walkDepsCases_mem cases, walkDeps_mem s]
          simp only [List.mem_append, List.append_nil]
          tauto
      | some d =>
          rw [show walkDeps (.matchE s cases (some d)) acc
              = walkDeps d (walkDepsCases cases (walkDeps s acc)) from rfl]
          rw [show varPathsNoPat (.matchE s cases (some d))
              = varPathsNoPat s ++ varPathsNoPatCases cases ++ varPathsNoPat d
              from rfl]
          rw [walkDeps_mem d, walkDepsCases_mem cases, walkDeps_mem s]
          simp only [List.mem_append]
          tauto
  | cond c t e =>
      intro acc p
      simp only [walkDeps, varPathsNoPat]
      rw [walkDeps_mem e, walkDeps_mem t, walkDeps_mem c]
      simp only [List.mem_append]
      tauto

def walkDepsList_mem (es : List Expr) :
    ∀ (acc : List String) (p : String),
      p ∈ walkDepsList es acc ↔
        p ∈ acc ∨ (p ∈ varPathsNoPatList es ∧ p.data.contains '/' = true) := by
  cases es with
  | nil => intro acc p; simp [walkDepsList, varPathsNoPatList]
  | cons e es =>
      intro acc p
      simp only [walkDepsList, varPathsNoPatList]
      rw [walkDepsList_mem es, walkDeps_mem e]
      simp only [List.mem_append]
      tauto

def walkDepsCases_mem (cs : List (Expr × Expr)) :
    ∀ (acc : List String) (p : String),
      p ∈ walkDepsCases cs acc ↔
        p ∈ acc ∨ (p ∈ varPathsNoPatCases cs ∧ p.data.contains '/' = true) := by
  cases cs with
  | nil => intro acc p; simp [walkDepsCases, varPathsNoPatCases]
  | cons c cs =>
      obtain ⟨pat, res⟩ := c
      intro acc p
      simp only [walkDepsCases, varPathsNoPatCases]
      rw [walkDepsCases_mem cs, walkDeps_mem res]
      simp only [List.mem_append]
      tauto
end

/-- The `Match` expression whose only case has a `/`-path in pattern
position: `match 0: a/b => 1`. -/
def c3expr : Expr :=
  .matchE (.literal (.num 0)) [(.var "a/b", .literal (.num 1))] Option.none

/-- A module whose single variable resolves to `c3expr`. -/
def c3mod : Module :=
  { «variables» := [{ path := "g/m", values := [⟨0, Option.none, c3expr⟩] }] }

/-- C3 (counterexample): `a/b` is a `/`-containing `Var` path occurring
(in pattern position) in `g/m`'s resolved expression, yet the compiler
computes an empty dependency set for it. -/
theorem c3_counterexample :
    compile [c3mod] 0 =
      .ok ⟨⟨[]⟩, [("g/m", ⟨"g/m", Option.none, c3expr, []⟩)], ["g/m"]⟩ ∧
    "a/b" ∈ specVarPaths c3expr ∧
    ("a/b").data.contains '/' = true :=
  ⟨rfl, by simp [c3expr, specVarPaths, specVarPathsCases], rfl⟩

/-- C3 (amended): the dependency set the compiler computes for an
expression is exactly the set of `/`-containing `Var` paths of the
tree excluding those in the pattern position of `Match` cases. -/
theorem c3_deps_exclude_patterns (e : Expr) (p : String) :
    p ∈ findDeps e ↔
      p ∈ varPathsNoPat e ∧ p.data.contains '/' = true := by
  unfold findDeps
  rw [walkDeps_mem]
  simp


/-! ### Claim C9 -/

theorem bind_congr_right {α β : Type} (x : Except Err α)
    (f g : α → Except Err β) (h : ∀ a, f a = g a) :
    (x >>= f) = (x >>= g) := by
  cases x with
  | error e => rfl
  | ok a => show f a = g a; exact h a

mutual
/-- The evaluator never reads `Context.data`: evaluation results agree
for any two data snapshots when the rest of the context agrees. -/
def evaluate_data_irrel (e : Expr) :
    ∀ (d₁ d₂ : Data) (c : List (String × Value)) (r : Option Row)
      (en : Option String),
      evaluate e ⟨d₁, c, r, en⟩ = evaluate e ⟨d₂, c, r, en⟩ := by
  cases e with
  | literal v => intro d₁ d₂ c r en; rfl
  | var p => intro d₁ d₂ c r en; rfl
  | binop op l r₀ =>
      intro d₁ d₂ c r en
      simp only [evaluate]
      rw [evaluate_data_irrel l d₁ d₂ c r en]
      apply bind_congr_right
      intro lv
      rw [evaluate_data_irrel r₀ d₁ d₂ c r en]
  | unaryop op o =>
      intro d₁ d₂ c r en
      simp only [evaluate]
      rw [evaluate_data_irrel o d₁ d₂ c r en]
  | call f args =>
      intro d₁ d₂ c r en
      simp only [evaluate]
      by_cases h : f ∈ BUILTIN_NAMES
      · rw [if_pos h, if_pos h, evaluateList_data_irrel args d₁ d₂ c r en]
      · rw [if_neg h, if_neg h]
  | fieldAccess obj fld =>
      intro d₁ d₂ c r en
      simp only [evaluate]
      rw [evaluate_data_irrel obj d₁ d₂ c r en]
  | matchE s cases dflt =>
      intro d₁ d₂ c r en
      cases dflt with
      | none =>
          simp only [evaluate]
          rw [evaluate_data_irrel s d₁ d₂ c r en]
          apply bind_congr_right
          intro val
          rw [evaluateCases_data_irrel cases val d₁ d₂ c r en]
      | some d =>
          simp only [evaluate]
          rw [evaluate_data_irrel s d₁ d₂ c r en]
          apply bind_congr_right
          intro val
          rw [evaluateCases_data_irrel cases val d₁ d₂ c r en,
            evaluate_data_irrel d d₁ d₂ c r en]
  | cond c₀ t e₀ =>
      intro d₁ d₂ c r en
      simp only [evaluate]
      rw [evaluate_data_irrel c₀ d₁ d₂ c r en]
      apply bind_congr_right
      intro cv
      rw [evaluate_data_irrel t d₁ d₂ c r en,
        evaluate_data_irrel e₀ d₁ d₂ c r en]

def evaluateList_data_irrel (es : List Expr) :
    ∀ (d₁ d₂ : Data) (c : List (String × Value)) (r : Option Row)
      (en : Option String),
      evaluateList es ⟨d₁, c, r, en⟩ = evaluateList es ⟨d₂, c, r, en⟩ := by
  cases es with
  | nil => intro d₁ d₂ c r en; rfl
  | cons e es =>
      intro d₁ d₂ c r en
      simp only [evaluateList]
      rw [evaluate_data_irrel e d₁ d₂ c r en]
      apply bind_congr_right
      intro v
      rw [evaluateList_data_irrel es d₁ d₂ c r en]

def evaluateCases_data_irrel (cs : List (Expr × Expr)) :
    ∀ (val : Value) (d₁ d₂ : Data) (c : List (String × Value))
      (r : Option Row) (en : Option String),
      evaluateCases val cs ⟨d₁, c, r, en⟩
        = evaluateCases val cs ⟨d₂, c, r, en⟩ := by
  cases cs with
  | nil => intro val d₁ d₂ c r en; rfl
  | cons pr rest =>
      obtain ⟨pat, res⟩ := pr
      intro val d₁ d₂ c r en
      simp only [evaluateCases]
      rw [evaluate_data_irrel pat d₁ d₂ c r en]
      apply bind_congr_right
      intro pv
      rw [evaluate_data_irrel res d₁ d₂ c r en,
        evaluateCases_data_irrel rest val d₁ d₂ c r en]
end

/-- Shape of a successful `execStep`: a scalar step extends `computed`
with the evaluated expression; an entity step leaves `computed`
untouched. -/
theorem bind_ok_inv {α β : Type} {x : Except Err α} {f : α → Except Err β}
    {b : β} (h : (x >>= f) = .ok b) : ∃ a, x = .ok a ∧ f a = .ok b := by
  cases x with
  | error e => exact absurd h (by simp [Bind.bind, Except.bind])
  | ok a => exact ⟨a, rfl, h⟩

theorem execStep_computed_eq {ir : IR} {data : Data} {st : ExecState}
    {p : String} {st' : ExecState} (h : execStep ir data st p = .ok st') :
    ∃ var, ir.variables.lookup p = some var ∧
      ((var.entity = Option.none ∧
        ∃ v, evaluate var.expr ⟨data, st.computed, Option.none, Option.none⟩
            = .ok v ∧
          st'.computed = dictSet st.computed p v) ∨
       (∃ ent, var.entity = some ent ∧ st'.computed = st.computed)) := by
  unfold execStep at h
  split at h
  · simp at h
  · rename_i var hlk
    split at h
    · rename_i hent
      obtain ⟨v, hv, hpure⟩ := bind_ok_inv h
      simp only [pure, Except.pure, Except.ok.injEq] at hpure
      refine ⟨var, hlk, Or.inl ⟨hent, v, hv, ?_⟩⟩
      rw [← hpure]
    · rename_i ent hent
      obtain ⟨vals, hrr, hpure⟩ := bind_ok_inv h
      simp only [pure, Except.pure, Except.ok.injEq] at hpure
      refine ⟨var, hlk, Or.inr ⟨ent, hent, ?_⟩⟩
      rw [← hpure]

/-- Two successful runs of the main execute loop over the same order
but different data snapshots build the same computed-scalars dict. -/
theorem execList_computed_irrel (ir : IR) :
    ∀ (paths : List String) (d₁ d₂ : Data) (st₁ st₂ r₁ r₂ : ExecState),
      st₁.computed = st₂.computed →
      execList ir d₁ st₁ paths = .ok r₁ →
      execList ir d₂ st₂ paths = .ok r₂ →
      r₁.computed = r₂.computed := by
  intro paths
  induction paths with
  | nil =>
      intro d₁ d₂ st₁ st₂ r₁ r₂ hc h₁ h₂
      cases h₁
      cases h₂
      exact hc
  | cons p rest ih =>
      intro d₁ d₂ st₁ st₂ r₁ r₂ hc h₁ h₂
      simp only [execList] at h₁ h₂
      cases hs₁ : execStep ir d₁ st₁ p with
      | error e => rw [hs₁] at h₁; simp [Bind.bind, Except.bind] at h₁
      | ok st₁' =>
          rw [hs₁] at h₁
          simp only [Bind.bind, Except.bind] at h₁
          cases hs₂ : execStep ir d₂ st₂ p with
          | error e => rw [hs₂] at h₂; simp [Bind.bind, Except.bind] at h₂
          | ok st₂' =>
              rw [hs₂] at h₂
              simp only [Bind.bind, Except.bind] at h₂
              have hc' : st₁'.computed = st₂'.computed := by
                obtain ⟨var₁, hlk₁, hcase₁⟩ := execStep_computed_eq hs₁
                obtain ⟨var₂, hlk₂, hcase₂⟩ := execStep_computed_eq hs₂
                rw [hlk₁] at hlk₂
                cases hlk₂
                rcases hcase₁ with ⟨hent₁, v₁, hv₁, hc₁⟩ |
                    ⟨ent₁, hent₁, hc₁⟩ <;>
                  rcases hcase₂ with ⟨hent₂, v₂, hv₂, hc₂⟩ |
                      ⟨ent₂, hent₂, hc₂⟩
                · have hev : evaluate var₁.expr
                      ⟨d₁, st₁.computed, Option.none, Option.none⟩
                      = evaluate var₁.expr
                        ⟨d₂, st₂.computed, Option.none, Option.none⟩ := by
                    rw [hc]
                    exact evaluate_data_irrel var₁.expr d₁ d₂ st₂.computed
                      Option.none Option.none
                  rw [hev, hv₂] at hv₁
                  cases hv₁
                  rw [hc₁, hc₂, hc]
                · rw [hent₁] at hent₂; cases hent₂
                · rw [hent₂] at hent₁; cases hent₁
                · rw [hc₁, hc₂]; exact hc
              exact ih d₁ d₂ st₁' st₂' r₁ r₂ hc' h₁ h₂

/-- C9: scalar outputs are a function of the IR alone — two successful
executions of the same IR over arbitrarily different data snapshots
produce identical scalar maps. -/
theorem c9_semantic_isolation (ir : IR) (d₁ d₂ : Data) (r₁ r₂ : Result)
    (h₁ : Executor.execute ir d₁ = .ok r₁)
    (h₂ : Executor.execute ir d₂ = .ok r₂) :
    r₁.scalars = r₂.scalars := by
  unfold Executor.execute at h₁ h₂
  cases hf₁ : execList ir d₁ {} ir.order with
  | error e => rw [hf₁] at h₁; simp [Bind.bind, Except.bind] at h₁
  | ok st₁ =>
      rw [hf₁] at h₁
      simp only [Bind.bind, Except.bind, pure, Except.pure,
        Except.ok.injEq] at h₁
      cases hf₂ : execList ir d₂ {} ir.order with
      | error e => rw [hf₂] at h₂; simp [Bind.bind, Except.bind] at h₂
      | ok st₂ =>
          rw [hf₂] at h₂
          simp only [Bind.bind, Except.bind, pure, Except.pure,
            Except.ok.injEq] at h₂
          rw [← h₁, ← h₂]
          show st₁.computed = st₂.computed
          exact execList_computed_irrel ir ir.order d₁ d₂ {} {} st₁ st₂
            rfl hf₁ hf₂

/-- A scalar `g/s = 3` next to a `person`-scoped variable reading the
row field `income`. -/
def c9mod : Module :=
  { «variables» :=
      [{ path := "g/s",
         values := [⟨0, Option.none, .literal (.num 3)⟩] },
       { path := "p/t", entity := some "person",
         values := [⟨0, Option.none, .var "income"⟩] }] }

/-- The IR obtained by compiling `c9mod` at date 0. -/
def c9ir : IR :=
  ⟨⟨[]⟩,
   [("g/s", ⟨"g/s", Option.none, .literal (.num 3), []⟩),
    ("p/t", ⟨"p/t", some "person", .var "income", []⟩)],
   ["g/s", "p/t"]⟩

/-- An input snapshot with one `person` row. -/
def c9data : Data := ⟨[("person", [[("income", .num 5)]])]⟩

/-- The result of running `c9ir` on the empty snapshot. -/
def c9r1 : Result :=
  ⟨[("g/s", .num 3)], [("person", [("p/t", [])])]⟩

/-- The result of running `c9ir` on the one-row snapshot. -/
def c9r2 : Result :=
  ⟨[("g/s", .num 3)], [("person", [("p/t", [.num 5])])]⟩

/-- C9 (witness): the same IR run on the empty snapshot and on a
one-person snapshot yields identical scalar maps. -/
theorem c9_semantic_isolation_witness :
    Executor.execute c9ir ⟨[]⟩ = .ok c9r1 ∧
    Executor.execute c9ir c9data = .ok c9r2 ∧
    c9r1.scalars = c9r2.scalars :=
  ⟨rfl, rfl, c9_semantic_isolation c9ir ⟨[]⟩ c9data c9r1 c9r2 rfl rfl⟩


/-! ### Claim C10 -/

theorem compile_ok_dest {modules : List Module} {asOf : DateT} {ir : IR}
    (hc : compile modules asOf = .ok ir) :
    topoSort ir.variables = .ok ir.order := by
  rw [compile_eq] at hc
  cases h₁ : collectVariables modules with
  | error e => rw [h₁] at hc; simp at hc
  | ok varDecls =>
      rw [h₁] at hc
      replace hc :
          (match resolveTemporal varDecls (collectAmendments modules) asOf with
            | .error e => (.error e : Except CompileError IR)
            | .ok resolved =>
              match topoSort (withDeps resolved) with
              | .error e => .error e
              | .ok order =>
                  .ok ⟨collectEntities modules, withDeps resolved, order⟩)
            = .ok ir := hc
      cases hr : resolveTemporal varDecls (collectAmendments modules) asOf with
      | error e => rw [hr] at hc; simp at hc
      | ok resolved =>
          rw [hr] at hc
          replace hc :
              (match topoSort (withDeps resolved) with
                | .error e => (.error e : Except CompileError IR)
                | .ok order =>
                    .ok ⟨collectEntities modules, withDeps resolved, order⟩)
                = .ok ir := hc
          cases ht : topoSort (withDeps resolved) with
          | error e => rw [ht] at hc; simp at hc
          | ok order =>
              rw [ht] at hc
              simp only [Except.ok.injEq] at hc
              subst hc
              exact ht

theorem execList_append (ir : IR) (data : Data) :
    ∀ (l₁ l₂ : List String) (st : ExecState),
      execList ir data st (l₁ ++ l₂)
        = (execList ir data st l₁ >>= fun st₁ => execList ir data st₁ l₂) := by
  intro l₁
  induction l₁ with
  | nil =>
      intro l₂ st
      show execList ir data st l₂ = (Except.ok st >>= _)
      rfl
  | cons p l₁ ih =>
      intro l₂ st
      rw [List.cons_append]
      simp only [execList]
      cases hs : execStep ir data st p with
      | error e => simp [Bind.bind, Except.bind]
      | ok st₁ =>
          simp only [Bind.bind, Except.bind]
          exact ih l₂ st₁

theorem execList_err_of_missing (ir : IR) (data : Data) :
    ∀ (paths : List String) (st : ExecState) (p : String),
      p ∈ paths → ir.variables.lookup p = Option.none →
      ∃ e, execList ir data st paths = .error e := by
  intro paths
  induction paths with
  | nil => intro st p hp; simp at hp
  | cons q rest ih =>
      intro st p hp hmiss
      simp only [execList]
      cases hs : execStep ir data st q with
      | error e => exact ⟨e, by simp [Bind.bind, Except.bind]⟩
      | ok st₁ =>
          simp only [Bind.bind, Except.bind]
          rcases List.mem_cons.mp hp with hq | hrest
          · subst hq
            unfold execStep at hs
            rw [hmiss] at hs
            simp at hs
          · exact ih st₁ p hrest hmiss

/-- C10 (amended): a `/`-path referenced by a resolved expression but
not declared is placed in `IR.order` with no entry in `IR.variables`
when compilation otherwise succeeds; every `Executor.execute` call on
such an IR fails before producing any result, and when the paths
preceding the missing one execute successfully, the failure is the
untyped `KeyError` at that path. -/
theorem c10_missing_dependency
    {modules : List Module} {asOf : DateT} {ir : IR}
    (hc : compile modules asOf = .ok ir)
    {u p : String} {rv : ResolvedVar}
    (hu : ir.variables.lookup u = some rv)
    (hdep : p ∈ rv.deps)
    (hmiss : ir.variables.lookup p = Option.none) :
    p ∈ ir.order ∧
    (∀ data, ∃ e, Executor.execute ir data = .error e) ∧
    (∀ data pre post st,
      ir.order = pre ++ p :: post →
      execList ir data {} pre = .ok st →
      Executor.execute ir data = .error (.keyError p)) := by
  have ht := compile_ok_dest hc
  obtain ⟨⟨hnd, hedge⟩, hall⟩ := topoSort_ok_inv ht
  have humem : u ∈ ir.order := by
    have hk := lookup_some_mem_keys hu
    obtain ⟨pv, hpv, hfst⟩ := List.mem_map.mp hk
    exact hfst ▸ hall pv hpv
  obtain ⟨hpmem, _⟩ := hedge u rv p humem hu hdep
  refine ⟨hpmem, ?_, ?_⟩
  · intro data
    obtain ⟨e, he⟩ := execList_err_of_missing ir data ir.order {} p hpmem hmiss
    refine ⟨e, ?_⟩
    unfold Executor.execute
    rw [he]
    rfl
  · intro data pre post st hsplit hpre
    have hstep : execStep ir data st p = .error (.keyError p) := by
      unfold execStep
      rw [hmiss]
    have hlist : execList ir data ({} : ExecState) ir.order
        = .error (.keyError p) := by
      rw [hsplit, execList_append, hpre]
      show execList ir data st (p :: post) = _
      simp only [execList]
      rw [hstep]
      rfl
    unfold Executor.execute
    rw [hlist]
    rfl

/-- A module whose first variable evaluates an undefined bare
identifier and whose second references an undeclared `/`-path. -/
def c10mod : Module :=
  { «variables» :=
      [{ path := "g/a", values := [⟨0, Option.none, .var "x"⟩] },
       { path := "g/b",
         values := [⟨0, Option.none,
           .binop "+" (.var "missing/dep") (.literal (.num 1))⟩] }] }

/-- The IR obtained by compiling `c10mod` at date 0: the undeclared
dependency sits in the order between the two declared variables. -/
def c10ir : IR :=
  ⟨⟨[]⟩,
   [("g/a", ⟨"g/a", Option.none, .var "x", []⟩),
    ("g/b", ⟨"g/b", Option.none,
      .binop "+" (.var "missing/dep") (.literal (.num 1)),
      ["missing/dep"]⟩)],
   ["g/a", "missing/dep", "g/b"]⟩

/-- C10 (counterexample): `c10ir` satisfies the claim's premise — the
resolved expression of `g/b` references the undeclared `/`-path
`missing/dep`, which is in the order with no variables entry — yet
executing it raises an `ExecutionError` for the earlier variable
`g/a`, not the untyped `KeyError` the claim promises for every
execute call. -/
theorem c10_counterexample :
    compile [c10mod] 0 = .ok c10ir ∧
    c10ir.variables.lookup "g/b"
      = some ⟨"g/b", Option.none,
          .binop "+" (.var "missing/dep") (.literal (.num 1)),
          ["missing/dep"]⟩ ∧
    c10ir.variables.lookup "missing/dep" = Option.none ∧
    "missing/dep" ∈ c10ir.order ∧
    Executor.execute c10ir ⟨[]⟩
      = .error (.executionError ("undefined: " ++ "x")) :=
  ⟨rfl, rfl, rfl, by decide, rfl⟩

/-- A module holding only the variable with the undeclared `/`-path
dependency. -/
def c10bmod : Module :=
  { «variables» :=
      [{ path := "g/b",
         values := [⟨0, Option.none,
           .binop "+" (.var "missing/dep") (.literal (.num 1))⟩] }] }

/-- The IR obtained by compiling `c10bmod` at date 0. -/
def c10bir : IR :=
  ⟨⟨[]⟩,
   [("g/b", ⟨"g/b", Option.none,
      .binop "+" (.var "missing/dep") (.literal (.num 1)),
      ["missing/dep"]⟩)],
   ["missing/dep", "g/b"]⟩

/-- C10 (witness): the amended theorem applied to `c10bir`, whose
missing path heads the order, plus the concrete `KeyError` outcome. -/
theorem c10_missing_dependency_witness :
    ("missing/dep" ∈ c10bir.order ∧
     (∀ data, ∃ e, Executor.execute c10bir data = .error e) ∧
     (∀ data pre post st,
       c10bir.order = pre ++ "missing/dep" :: post →
       execList c10bir data {} pre = .ok st →
       Executor.execute c10bir data = .error (.keyError "missing/dep"))) ∧
    Executor.execute c10bir ⟨[]⟩ = .error (.keyError "missing/dep") := by
  constructor
  · have hc : compile [c10bmod] 0 = .ok c10bir := rfl
    have hu : c10bir.variables.lookup "g/b"
        = some ⟨"g/b", Option.none,
            .binop "+" (.var "missing/dep") (.literal (.num 1)),
            ["missing/dep"]⟩ := rfl
    have hmiss : c10bir.variables.lookup "missing/dep" = Option.none := rfl
    exact c10_missing_dependency hc hu (by decide) hmiss
  · rfl

end RAC
